import Mathlib

/-!
Verification development for the mysql-sniffer-go repository.

Go strings and byte slices are modelled uniformly as `List ℕ` (byte / rune
values); `nil` slices that are only ever tested for emptiness are modelled
as `[]`, while `respBuffer`, whose nil-ness is tested explicitly, is an
`Option (List ℕ)`.  Machine integers are modelled as `ℕ`, with an explicit
`% 2 ^ 64` exactly where the Go code can overflow a `uint64`.
-/

namespace Sniffer

/-- Byte list of a Lean string literal (ASCII contents only in this file). -/
def strB (s : String) : List ℕ :=
  s.data.map (fun c => c.toNat)

/-- Decimal digits with explicit fuel (the value itself bounds the number of
divisions by ten), so the definition is structural and kernel-reducible. -/
def decimalAux : ℕ → ℕ → List ℕ
  | 0, n => [48 + n % 10]
  | fuel + 1, n =>
    if n < 10 then [48 + n]
    else decimalAux fuel (n / 10) ++ [48 + n % 10]

/-- Decimal digits of a natural number, most significant first, as ASCII
bytes; models `fmt.Sprintf("%d", n)` for unsigned values. -/
def decimal (n : ℕ) : List ℕ := decimalAux n n

/-- Does `pat` occur at the head of `l`? -/
def leadsWith : List ℕ → List ℕ → Bool
  | [], _ => true
  | _ :: _, [] => false
  | p :: ps, c :: cs => p == c && leadsWith ps cs

/-- Does `pat` occur anywhere inside `l` (contiguously)?  Models
`strings.Contains` for our byte-list strings. -/
def containsSeq : List ℕ → List ℕ → Bool
  | l, pat =>
    match l with
    | [] => leadsWith pat []
    | _ :: cs => leadsWith pat l || containsSeq cs pat

/-- Split at the first occurrence of byte 32 (space): returns the prefix and,
when a space was found, the remainder after it. -/
def breakSp : List ℕ → List ℕ × Option (List ℕ)
  | [] => ([], none)
  | 32 :: r => ([], some r)
  | c :: r =>
    let p := breakSp r
    (c :: p.1, p.2)

/-- Models `strings.SplitN(s, " ", n)` for `n ≥ 1`. -/
def splitNSpace : ℕ → List ℕ → List (List ℕ)
  | 0, l => [l]
  | 1, l => [l]
  | n + 2, l =>
    match breakSp l with
    | (_, none) => [l]
    | (pre, some post) => pre :: splitNSpace (n + 1) post

/-- Bytes after the first colon; models `strings.SplitN(s, ":", 2)[1]` on
inputs that contain a colon. -/
def afterColon : List ℕ → List ℕ
  | [] => []
  | 58 :: r => r
  | _ :: r => afterColon r

/-- Models `strings.ReplaceAll(tmp, "?, ", "")`: non-overlapping left-to-right
removal of the three-byte pattern `?`, `,`, space. -/
def replaceQcs : List ℕ → List ℕ
  | 63 :: 44 :: 32 :: rest => replaceQcs rest
  | c :: rest => c :: replaceQcs rest
  | [] => []

/-- Does the pattern `"?, "` occur anywhere in `l`? -/
def occursQcs : List ℕ → Bool
  | 63 :: 44 :: 32 :: _ => true
  | _ :: rest => occursQcs rest
  | [] => false

/-! ## Tokenizer (`scanToken`, source `src/mysql-sniffer.go:664`) -/

/-- Token classes; the source uses the integers `TOKEN_WORD = 0`,
`TOKEN_QUOTE = 1`, `TOKEN_NUMBER = 2`, `TOKEN_WHITESPACE = 3`,
`TOKEN_OTHER = 4`. -/
inductive TokenType
  | word
  | quote
  | number
  | whitespace
  | other
deriving DecidableEq, Repr

def isDigitB (c : ℕ) : Bool := 48 ≤ c && c ≤ 57

def isWsB (c : ℕ) : Bool := c == 32 || (9 ≤ c && c ≤ 13)

def isAlphaB (c : ℕ) : Bool := (65 ≤ c && c ≤ 90) || (97 ≤ c && c ≤ 122)

def isWordB (c : ℕ) : Bool := isDigitB c || isAlphaB c || c == 36 || c == 95

/-- The quote-scanning loop of `scanToken`: scans `rest` (the bytes after the
opening quote `sw`) with the escape flag `esc`; returns the number of bytes up
to and including the closing quote, or `none` when the quote never closes.
Note the source sets `escaped = true` on every backslash, even an escaped
one, so `\\` keeps the escape alive. -/
def quoteAux (sw : ℕ) : Bool → List ℕ → Option ℕ
  | _, [] => none
  | esc, c :: cs =>
    if c = sw then
      if esc then (quoteAux sw false cs).map (· + 1) else some 1
    else if c = 92 then (quoteAux sw true cs).map (· + 1)
    else (quoteAux sw false cs).map (· + 1)

/-- Embedding of `scanToken` (`src/mysql-sniffer.go:664`).  `vnc` is the
global condition `verbose && noclean`; the source aborts on an empty input
(`log.Fatalf`), which `cleanupQuery` never triggers, so that case returns a
dummy value here. -/
def scanToken (vnc : Bool) (query : List ℕ) : ℕ × TokenType :=
  match query with
  | [] => (0, TokenType.other)
  | b :: rest =>
    if vnc then (rest.length + 1, TokenType.other)
    else if b = 39 ∨ b = 34 then
      match quoteAux b false rest with
      | some k => (k + 1, TokenType.quote)
      | none => (rest.length + 1, TokenType.quote)
    else if isDigitB b then (1 + (rest.takeWhile isDigitB).length, TokenType.number)
    else if isWsB b then (1 + (rest.takeWhile isWsB).length, TokenType.whitespace)
    else if isAlphaB b then (1 + (rest.takeWhile isWordB).length, TokenType.word)
    else (1, TokenType.other)

theorem quoteAux_le (sw : ℕ) : ∀ (esc : Bool) (l : List ℕ) (k : ℕ),
    quoteAux sw esc l = some k → 1 ≤ k ∧ k ≤ l.length := by
  intro esc l
  induction l generalizing esc with
  | nil => intro k h; simp [quoteAux] at h
  | cons c cs ih =>
    intro k h
    simp only [quoteAux] at h
    split at h
    · split at h
      · rcases Option.map_eq_some'.mp h with ⟨k', hk', rfl⟩
        have := ih false k' hk'
        simp only [List.length_cons]; omega
      · cases h; simp
    · split at h
      · rcases Option.map_eq_some'.mp h with ⟨k', hk', rfl⟩
        have := ih true k' hk'
        simp only [List.length_cons]; omega
      · rcases Option.map_eq_some'.mp h with ⟨k', hk', rfl⟩
        have := ih false k' hk'
        simp only [List.length_cons]; omega

theorem takeWhile_len_le (p : ℕ → Bool) (l : List ℕ) :
    (l.takeWhile p).length ≤ l.length :=
  (List.takeWhile_sublist _).length_le

theorem scanToken_pos (vnc : Bool) (q : List ℕ) (h : q ≠ []) :
    1 ≤ (scanToken vnc q).1 ∧ (scanToken vnc q).1 ≤ q.length := by
  match q with
  | [] => exact absurd rfl h
  | b :: rest =>
    have htw1 := takeWhile_len_le isDigitB rest
    have htw2 := takeWhile_len_le isWsB rest
    have htw3 := takeWhile_len_le isWordB rest
    simp only [scanToken, List.length_cons]
    split
    · simp
    · split
      · split
        · rename_i k hqa
          have := quoteAux_le b false rest k hqa
          constructor <;> simp <;> omega
        · simp
      · split
        · constructor <;> simp <;> omega
        · split
          · constructor <;> simp <;> omega
          · split
            · constructor <;> simp <;> omega
            · simp

/-- The token-stream loop with explicit fuel (one unit per emitted token;
`scanToken` consumes at least one byte per step, so the input length is
enough fuel).  Structural recursion keeps the definition kernel-reducible. -/
def tokensAux (vnc : Bool) : ℕ → List ℕ → List (TokenType × List ℕ)
  | 0, _ => []
  | _, [] => []
  | fuel + 1, query =>
    let s := scanToken vnc query
    (s.2, query.take s.1) :: tokensAux vnc fuel (query.drop s.1)

/-- The token stream produced by the `cleanupQuery` loop: repeatedly apply
`scanToken` and step past each token (`src/mysql-sniffer.go:744`). -/
def tokens (vnc : Bool) (query : List ℕ) : List (TokenType × List ℕ) :=
  tokensAux vnc query.length query

theorem tokensAux_fuel (vnc : Bool) :
    ∀ (fuel : ℕ) (q : List ℕ), q.length ≤ fuel →
      tokensAux vnc fuel q = tokensAux vnc q.length q := by
  intro fuel
  induction fuel using Nat.strong_induction_on with
  | _ fuel ih =>
    intro q hle
    match fuel, q with
    | 0, q =>
      have : q = [] := List.length_eq_zero.mp (Nat.le_zero.mp hle)
      subst this; rfl
    | fuel + 1, [] => rfl
    | fuel + 1, b :: rest =>
      have hpos := scanToken_pos vnc (b :: rest) (by simp)
      simp only [List.length_cons] at hle hpos
      simp only [tokensAux, List.length_cons]
      have hdrop : ((b :: rest).drop (scanToken vnc (b :: rest)).1).length
          = rest.length + 1 - (scanToken vnc (b :: rest)).1 := by
        simp [List.length_drop]
      rw [ih fuel (by omega) _ (by rw [hdrop]; omega),
        ih rest.length (by omega) _ (by rw [hdrop]; omega)]

/-- Unfolding equation for `tokens` on a non-empty input. -/
theorem tokens_cons (vnc : Bool) (b : ℕ) (rest : List ℕ) :
    tokens vnc (b :: rest) =
      ((scanToken vnc (b :: rest)).2, (b :: rest).take (scanToken vnc (b :: rest)).1)
        :: tokens vnc ((b :: rest).drop (scanToken vnc (b :: rest)).1) := by
  have hpos := scanToken_pos vnc (b :: rest) (by simp)
  simp only [tokens, List.length_cons, tokensAux]
  congr 1
  exact tokensAux_fuel vnc rest.length _
    (by simp only [List.length_drop, List.length_cons] at *; omega)

/-- Emission of a single token in `cleanupQuery`'s `switch`:
WORD/OTHER verbatim, NUMBER/QUOTE a `?`, WHITESPACE a single space. -/
def emitToken : TokenType × List ℕ → List ℕ
  | (TokenType.word, s) => s
  | (TokenType.other, s) => s
  | (TokenType.number, _) => [63]
  | (TokenType.quote, _) => [63]
  | (TokenType.whitespace, _) => [32]

/-- The `qspace` list built by `cleanupQuery`'s loop. -/
def qspaceOf (vnc : Bool) (query : List ℕ) : List (List ℕ) :=
  (tokens vnc query).map emitToken

/-- The route-comment rewrite inside `cleanupQuery`
(`src/mysql-sniffer.go:767`): on shape `w0 /* host:route */ rest`
(split on space into 5 parts) the `host:` prefix is stripped. -/
def routeRewrite (tmp : List ℕ) : List ℕ :=
  let parts := splitNSpace 5 tmp
  -- [47, 42] is "/*", [42, 47] is "*/"; the rebuilt text inserts " /* " and " */ "
  if 5 ≤ parts.length ∧ parts.getD 1 [] = [47, 42] ∧ parts.getD 3 [] = [42, 47]
      ∧ (parts.getD 2 []).any (· == 58) then
    parts.getD 0 [] ++ [32, 47, 42, 32] ++ afterColon (parts.getD 2 [])
      ++ [32, 42, 47, 32] ++ parts.getD 4 []
  else tmp

/-- Embedding of `cleanupQuery` (`src/mysql-sniffer.go:741`): tokenize and
emit, join, rewrite the leading route comment, then globally remove `"?, "`. -/
def cleanupQuery (vnc : Bool) (query : List ℕ) : List ℕ :=
  replaceQcs (routeRewrite (qspaceOf vnc query).flatten)

/-! ## Wire framer (`carvePacket`, source `src/mysql-sniffer.go:563`) -/

/-- The 24-bit little-endian length declared by the first three bytes
(zero when fewer than three bytes are present). -/
def size24 : List ℕ → ℕ
  | b0 :: b1 :: b2 :: _ => b0 + b1 * 256 + b2 * 65536
  | _ => 0

/-- Embedding of `carvePacket`.  The Go function mutates the buffer in
place; functionally it returns `none` (error, buffer untouched) or
`some (commandByte, payloadAfterCommand, remainingBuffer)`.  A consumed
buffer becomes `nil` in Go, i.e. `[]` here. -/
def carvePacket (buf : List ℕ) : Option (ℕ × List ℕ × List ℕ) :=
  match buf with
  | _ :: _ :: _ :: _ :: pT :: _ =>
    let size := size24 buf
    if size = 0 ∨ buf.length < size + 4 then none
    else some (pT, (buf.take (size + 4)).drop 5, buf.drop (size + 4))
  | _ => none

/-! ## Length-encoded integers and `parseComQuery` -/

/-- Modelled from the spec: length-encoded integer decoding (§4.2 of the
design; the implementation calls `mysql.LengthEncodedInt` from the
`go-mysql` dependency, which is not part of this repository's sources).
A first byte below `0xFB` is the value itself (the library's default
branch, which also makes `0xFF` yield the value 255); `0xFB` is NULL;
`0xFC`/`0xFD`/`0xFE` prefix 2-, 3- and 8-byte little-endian values.
The result is `(value, isNull, bytesRead)`.  When the multi-byte forms
lack their trailing bytes the library would index out of range (a Go
panic); that case is `none` here and no theorem below relies on it. -/
def LengthEncodedInt (b : List ℕ) : Option (ℕ × Bool × ℕ) :=
  match b with
  | [] => some (0, true, 1)
  | c :: rest =>
    if c = 0xfb then some (0, true, 1)
    else if c = 0xfc then
      match rest with
      | x :: y :: _ => some (x + y * 256, false, 3)
      | _ => none
    else if c = 0xfd then
      match rest with
      | x :: y :: z :: _ => some (x + y * 256 + z * 65536, false, 4)
      | _ => none
    else if c = 0xfe then
      match rest with
      | x0 :: x1 :: x2 :: x3 :: x4 :: x5 :: x6 :: x7 :: _ =>
        some (x0 + x1 * 256 + x2 * 65536 + x3 * 16777216 + x4 * 4294967296
          + x5 * 1099511627776 + x6 * 281474976710656 + x7 * 72057594037927936,
          false, 9)
      | _ => none
    else some (c, false, 1)

instance {ε α : Type} [DecidableEq ε] [DecidableEq α] : DecidableEq (Except ε α) := fun x y =>
  match x, y with
  | Except.ok a, Except.ok b =>
    if h : a = b then isTrue (by rw [h]) else isFalse (fun hh => h (by injection hh))
  | Except.error a, Except.error b =>
    if h : a = b then isTrue (by rw [h]) else isFalse (fun hh => h (by injection hh))
  | Except.ok _, Except.error _ => isFalse (fun hh => by injection hh)
  | Except.error _, Except.ok _ => isFalse (fun hh => by injection hh)

/-- The error values `parseComQuery` can produce (its Go messages are fixed
strings). -/
inductive ComQueryErr
  | emptyData
  | missingParamSetCount
  | paramSetCountNull
  | unsupportedParams (pc : ℕ)
  | missingQueryText
deriving DecidableEq, Repr

/-- Embedding of `parseComQuery` (`src/mysql-sniffer.go:604`).  The outer
`Option` is `none` exactly when the dependency call would panic (out-of-range
indexing inside `LengthEncodedInt`); otherwise the Go error/return pair is an
`Except`. -/
def parseComQuery (data : List ℕ) : Option (Except ComQueryErr (List ℕ)) :=
  match data with
  | [] => some (Except.error ComQueryErr.emptyData)
  | b :: _ =>
    if b < 0x20 ∨ 0xfb ≤ b then
      match LengthEncodedInt data with
      | none => none
      | some (pc, isN, n) =>
        if isN ∨ n = 0 then some (Except.ok data)
        else if data.length ≤ n then some (Except.error ComQueryErr.missingParamSetCount)
        else
          match LengthEncodedInt (data.drop n) with
          | none => none
          | some (_, isN2, n2) =>
            if isN2 then some (Except.error ComQueryErr.paramSetCountNull)
            else if 0 < pc then some (Except.error (ComQueryErr.unsupportedParams pc))
            else if data.length ≤ n + n2 then some (Except.error ComQueryErr.missingQueryText)
            else some (Except.ok (data.drop (n + n2)))
    else some (Except.ok data)

/-! ## Format templates (`parseFormat`, source `src/mysql-sniffer.go:780`) -/

/-- A parsed format item: a literal chunk or one of the field tags
`F_QUERY`, `F_ROUTE`, `F_SOURCE`, `F_SOURCEIP` (`F_NONE` never reaches the
list). -/
inductive FmtItem
  | fstr (s : List ℕ)
  | fquery
  | froute
  | fsource
  | fsourceip
deriving DecidableEq, Repr

/-- ASCII lower-casing of one rune; models `strings.ToLower(string(char))`
for the ASCII template characters compared against `"s"/"i"/"r"/"q"`. -/
def toLowerAscii (c : ℕ) : ℕ := if 65 ≤ c ∧ c ≤ 90 then c + 32 else c

/-- The per-character loop of `parseFormat`: state is the `is_special` flag
and the accumulated literal `curstr`; a recognized `#x` tag flushes the
literal (when non-empty) and appends the tag. -/
def pfAux : List ℕ → Bool → List ℕ → List FmtItem
  | [], _, cur => if cur = [] then [] else [FmtItem.fstr cur]
  | c :: rest, sp, cur =>
    if c = 35 then
      if sp then pfAux rest false (cur ++ [35]) else pfAux rest true cur
    else if sp then
      if toLowerAscii c = 115 then
        (if cur = [] then [] else [FmtItem.fstr cur]) ++ FmtItem.fsource :: pfAux rest false []
      else if toLowerAscii c = 105 then
        (if cur = [] then [] else [FmtItem.fstr cur]) ++ FmtItem.fsourceip :: pfAux rest false []
      else if toLowerAscii c = 114 then
        (if cur = [] then [] else [FmtItem.fstr cur]) ++ FmtItem.froute :: pfAux rest false []
      else if toLowerAscii c = 113 then
        (if cur = [] then [] else [FmtItem.fstr cur]) ++ FmtItem.fquery :: pfAux rest false []
      else pfAux rest false (cur ++ [35, c])
    else pfAux rest false (cur ++ [c])

/-- ASCII space trimming; models `strings.TrimSpace` for ASCII templates. -/
def trimSp (l : List ℕ) : List ℕ :=
  ((l.dropWhile isWsB).reverse.dropWhile isWsB).reverse

/-- Embedding of `parseFormat` (`src/mysql-sniffer.go:780`): trims the
template, substitutes the fallback `"#b:#k"` for an empty template, then
runs the character loop. -/
def parseFormat (formatstr : List ℕ) : List FmtItem :=
  let t := trimSp formatstr
  pfAux (if t = [] then strB "#b:#k" else t) false []

/-! ## OK-packet decoding (`parseOKPacket`, source `src/mysql_parser.go:20`) -/

def colorGreen : List ℕ := strB "\x1b[32m"
def colorYellow : List ℕ := strB "\x1b[33m"
def colorCyan : List ℕ := strB "\x1b[36m"
def colorDefault : List ℕ := strB "\x1b[39m"

/-- The `", %s%d row(s) affected%s"` segment. -/
def arSeg (ar : ℕ) : List ℕ :=
  strB ", " ++ colorYellow ++ decimal ar ++ strB " row(s) affected" ++ colorDefault

/-- The `", %slast insert ID: %d%s"` segment. -/
def lidSeg (lid : ℕ) : List ℕ :=
  strB ", " ++ colorCyan ++ strB "last insert ID: " ++ decimal lid ++ colorDefault

/-- The `", %s%d warning(s)%s"` segment. -/
def wSeg (w : ℕ) : List ℕ :=
  strB ", " ++ colorYellow ++ decimal w ++ strB " warning(s)" ++ colorDefault

/-- The decoded `(affectedRows, lastInsertID, warnings)` fields of an OK
payload of length at least 7 (`none` when the length-encoded reads would
panic in the dependency).  `warnings` is 0 when fewer than four bytes
follow the two length-encoded integers, mirroring the Go zero value. -/
def okFields (data : List ℕ) : Option (ℕ × ℕ × ℕ) :=
  match LengthEncodedInt (data.drop 1) with
  | none => none
  | some (ar, _, n1) =>
    match LengthEncodedInt (data.drop (1 + n1)) with
    | none => none
    | some (lid, _, n2) =>
      let pos := 1 + n1 + n2
      let warnings :=
        if pos + 4 ≤ data.length then data.getD (pos + 2) 0 + data.getD (pos + 3) 0 * 256
        else 0
      some (ar, lid, warnings)

/-- Embedding of `parseOKPacket` (`src/mysql_parser.go:20`); the result is
the built output byte string. -/
def parseOKPacket (data : List ℕ) : Option (List ℕ) :=
  if data.length < 7 then some (strB "OK")
  else
    match okFields data with
    | none => none
    | some (ar, lid, warnings) =>
      some ((colorGreen ++ strB "OK" ++ colorDefault)
        ++ (if 0 < ar then arSeg ar else [])
        ++ (if 0 < lid then lidSeg lid else [])
        ++ (if 0 < warnings then wSeg warnings else []))

/-! ## Latency aggregation (`calculateTimes`, source `src/mysql-sniffer.go:474`) -/

/-- Loop state of `calculateTimes`: counts, running total (a `uint64`,
hence the explicit wraparound in `ctStep`), current min/max and the
`has_min` flag. -/
structure CTAcc where
  counts : ℕ
  total : ℕ
  mn : ℕ
  mx : ℕ
  hasMin : Bool
deriving DecidableEq, Repr

/-- One iteration of the `calculateTimes` loop over a reservoir slot. -/
def ctStep (acc : CTAcc) (val : ℕ) : CTAcc :=
  if val = 0 then acc
  else
    { counts := acc.counts + 1
      total := (acc.total + val) % 2 ^ 64
      mn := if val < acc.mn ∨ acc.hasMin = false then val else acc.mn
      mx := if acc.mx < val then val else acc.mx
      hasMin := true }

/-- Embedding of `calculateTimes`: fold the loop over the reservoir, then
divide by `10^6` into milliseconds (returned exactly, as rationals; the Go
float64 conversion and division are correctly rounded and monotone, which
is the tolerance the spec grants). -/
def calculateTimes (timings : List ℕ) : ℚ × ℚ × ℚ :=
  let a := timings.foldl ctStep ⟨0, 0, 0, 0, false⟩
  let avg : ℕ := if 0 < a.counts then a.total / a.counts else 0
  ((a.mn : ℚ) / 1000000, (avg : ℚ) / 1000000, (a.mx : ℚ) / 1000000)

/-! ## Flow state machine (`processRequest` / `processResponse`,
source `src/mysql-sniffer.go:319` and `src/mysql-sniffer.go:387`) -/

/-- The global flags and parsed format template (`verbose`, `noclean`,
`dirty`, `format`). -/
structure SnifferCfg where
  verbose : Bool
  noclean : Bool
  dirty : Bool
  fmt : List FmtItem
deriving Repr

/-- Per-fingerprint statistics (`queryData`); the reservoir is a bucket
index → sample function. -/
structure QD where
  count : ℕ
  bytes : ℕ
  times : ℕ → ℕ

/-- The per-flow `source` structure.  `respBuffer` is an `Option` because
the Go code tests it against `nil`; `reqSent` holds the recorded timestamp;
`qData` holds the fingerprint key of the entry the Go pointer refers to. -/
structure SrcState where
  hostPort : List ℕ
  srcIP : List ℕ
  synced : Bool
  reqBuffer : List ℕ
  respBuffer : Option (List ℕ)
  reqSent : Option ℕ
  reqTimes : ℕ → ℕ
  qBytes : ℕ
  qData : Option (List ℕ)
  qText : List ℕ

/-- The global mutable state touched by the two handlers: query counter,
desync counter, the fingerprint table `qbuf` (an association list keyed by
fingerprint) and the global reservoir. -/
structure Globals where
  queryCount : ℕ
  desyncs : ℕ
  qbuf : List (List ℕ × QD)
  times : ℕ → ℕ

/-- Full machine state for one flow. -/
structure MState where
  g : Globals
  rs : SrcState

/-- Lookup in the fingerprint table. -/
def qbufFind (m : List (List ℕ × QD)) (k : List ℕ) : Option QD :=
  match m with
  | [] => none
  | (k', v) :: rest => if k' = k then some v else qbufFind rest k

/-- Point update of the fingerprint table (insert if absent, mirroring
`qbuf[text] = qdata` followed by mutations through the shared pointer). -/
def qbufSet (m : List (List ℕ × QD)) (k : List ℕ) (v : QD) : List (List ℕ × QD) :=
  match m with
  | [] => [(k, v)]
  | (k', v') :: rest => if k' = k then (k, v) :: rest else (k', v') :: qbufSet rest k v

/-- Update the entry at `k` (no-op when absent); models a mutation through
a Go pointer into the map. -/
def qbufUpdate (m : List (List ℕ × QD)) (k : List ℕ) (f : QD → QD) :
    List (List ℕ × QD) :=
  match m with
  | [] => []
  | (k', v') :: rest => if k' = k then (k', f v') :: rest else (k', v') :: qbufUpdate rest k f

/-- Embedding of `formatQueryText` (`src/mysql-sniffer.go:428`): build the
aggregation key from the format items. -/
def formatQueryText (cfg : SnifferCfg) (rs : SrcState) (pdata : List ℕ) : List ℕ :=
  (cfg.fmt.map fun item =>
    match item with
    | FmtItem.fstr s => s
    | FmtItem.fquery =>
      if cfg.dirty then pdata else cleanupQuery (cfg.verbose && cfg.noclean) pdata
    | FmtItem.froute =>
      let parts := splitNSpace 5 pdata
      if 4 ≤ parts.length ∧ parts.getD 1 [] = strB "/*" ∧ parts.getD 3 [] = strB "*/" then
        if (parts.getD 2 []).any (· == 58) then afterColon (parts.getD 2 [])
        else parts.getD 2 []
      else strB "(unknown) " ++ cleanupQuery (cfg.verbose && cfg.noclean) pdata
    | FmtItem.fsource => rs.hostPort
    | FmtItem.fsourceip => rs.srcIP).flatten

/-- The shared tail of `processRequest` (`src/mysql-sniffer.go:363`–`383`):
record the timestamp, bump the query counter, compute the fingerprint,
update its statistics and remember the last-query context. -/
def recordCmd (cfg : SnifferCfg) (st : MState) (pData parsedQuery : List ℕ)
    (now : ℕ) : MState :=
  let text := formatQueryText cfg st.rs parsedQuery
  let plen := pData.length
  let qd := (qbufFind st.g.qbuf text).getD ⟨0, 0, fun _ => 0⟩
  let qd := { qd with count := qd.count + 1, bytes := qd.bytes + plen }
  { st with
    g := { st.g with
      queryCount := st.g.queryCount + 1
      qbuf := qbufSet st.g.qbuf text qd }
    rs := { st.rs with
      reqSent := some now
      qText := text
      qData := some text
      qBytes := plen } }

/-- Embedding of `processRequest` (`src/mysql-sniffer.go:319`).  `now` is the
timestamp `time.Now()` would produce during this call.  The result is `none`
exactly when `parseComQuery` would make the dependency panic. -/
def processRequest (cfg : SnifferCfg) (st : MState) (data : List ℕ) (now : ℕ) :
    Option MState :=
  -- leftover response buffer ⇒ desync
  let st :=
    if st.rs.respBuffer ≠ none then
      { st with
        g := { st.g with desyncs := st.g.desyncs + 1 }
        rs := { st.rs with respBuffer := none, synced := false } }
    else st
  -- rs.reqBuffer = data, then carve
  match carvePacket data with
  | none => some { st with rs := { st.rs with reqBuffer := data } }
  | some (pType, pData, restBuf) =>
    let st := { st with rs := { st.rs with reqBuffer := restBuf } }
    if st.rs.synced = false ∧ pType ≠ 3 then
      some { st with rs := { st.rs with reqBuffer := [], respBuffer := none } }
    else
      let st := { st with rs := { st.rs with synced := true } }
      if pType = 3 then
        match parseComQuery pData with
        | none => none
        | some (Except.error _) => some st
        | some (Except.ok q) => some (recordCmd cfg st pData q now)
      else some (recordCmd cfg st pData pData now)

/-- Embedding of `processResponse` (`src/mysql-sniffer.go:387`).  `now` is
the current time and `randn` the random bucket index drawn by
`rand.Intn(TIME_BUCKETS)`. -/
def processResponse (cfg : SnifferCfg) (st : MState) (data : List ℕ) (now randn : ℕ) :
    MState :=
  let rb := match st.rs.respBuffer with
    | none => data
    | some b => b ++ data
  let st := { st with rs := { st.rs with respBuffer := some rb } }
  match st.rs.reqSent with
  | none =>
    match st.rs.qData with
    | some k =>
      { st with g := { st.g with
          qbuf := qbufUpdate st.g.qbuf k fun qd => { qd with bytes := qd.bytes + data.length } } }
    | none => st
  | some t0 =>
    let reqtime := now - t0
    let st := { st with
      g := { st.g with
        times := fun i => if i = randn then reqtime else st.g.times i
        qbuf := match st.rs.qData with
          | some k => qbufUpdate st.g.qbuf k fun qd =>
              { qd with
                bytes := qd.bytes + data.length
                times := fun i => if i = randn then reqtime else qd.times i }
          | none => st.g.qbuf }
      rs := { st.rs with
        reqTimes := fun i => if i = randn then reqtime else st.rs.reqTimes i
        reqSent := none } }
    -- verbose display has no state effect; finally the buffer is cleared
    { st with rs := { st.rs with respBuffer := none } }

/-- One captured segment for a single flow: a request or a response payload
(`handlePacket` guarantees payloads are non-empty; the timestamps and the
random bucket index are inputs of the model). -/
inductive Event
  | req (data : List ℕ) (now : ℕ)
  | resp (data : List ℕ) (now : ℕ) (randn : ℕ)

/-- Process one event (`processPacket` without the packet counters). -/
def stepFlow (cfg : SnifferCfg) (st : MState) : Event → Option MState
  | Event.req data now => processRequest cfg st data now
  | Event.resp data now randn => some (processResponse cfg st data now randn)

/-- Process a sequence of events. -/
def runFlow (cfg : SnifferCfg) (st : MState) : List Event → Option MState
  | [] => some st
  | e :: es =>
    match stepFlow cfg st e with
    | none => none
    | some st2 => runFlow cfg st2 es

/-- A freshly created flow (`&source{hostPort: src, srcIP: srcIP,
synced: false}` plus zero-valued globals). -/
def initState (hostPort srcIP : List ℕ) : MState :=
  { g := { queryCount := 0, desyncs := 0, qbuf := [], times := fun _ => 0 }
    rs := { hostPort := hostPort, srcIP := srcIP, synced := false, reqBuffer := []
            respBuffer := none, reqSent := none, reqTimes := fun _ => 0
            qBytes := 0, qData := none, qText := [] } }

/-- Does `processRequest` record a command (i.e. reach the
`rs.reqSent = &tnow` line) when fed `data` in state `st`?  When it does,
the carved command byte is returned.  This re-traces the decision path of
`processRequest`: leftover response data clears `synced`, the frame must
carve, an unsynced flow accepts only `COM_QUERY`, and a `COM_QUERY`
payload must decode. -/
def recordsInfo (st : MState) (data : List ℕ) : Option ℕ :=
  let synced := if st.rs.respBuffer ≠ none then false else st.rs.synced
  match carvePacket data with
  | none => none
  | some (pType, pData, _) =>
    if synced = false ∧ pType ≠ 3 then none
    else if pType = 3 then
      match parseComQuery pData with
      | some (Except.ok _) => some pType
      | _ => none
    else some pType

/-- The command recorded (if any) by the `i`-th event of a trace, starting
the flow in `st0`. -/
def recordsAtE (cfg : SnifferCfg) (st0 : MState) (tr : List Event) (i : ℕ) : Option ℕ :=
  match tr.get? i, runFlow cfg st0 (tr.take i) with
  | some (Event.req d _), some st => recordsInfo st d
  | _, _ => none

/-- Is the `i`-th event a request that records a `COM_QUERY`? -/
def isRespE : Event → Bool
  | Event.resp _ _ _ => true
  | Event.req _ _ => false

/-- No response segment occurs in the given (suffix of a) trace. -/
def noRespIn : List Event → Bool
  | [] => true
  | e :: r => !isRespE e && noRespIn r

/-- The claim's characterization of an outstanding request: some event
recorded a `COM_QUERY` and no response segment was processed afterwards. -/
def comQueryOutstanding (cfg : SnifferCfg) (st0 : MState) (tr : List Event) : Prop :=
  ∃ i, recordsAtE cfg st0 tr i = some 3 ∧ noRespIn (tr.drop (i + 1)) = true

/-- The amended characterization: some event recorded a command (of any
type) and no response segment was processed afterwards. -/
def cmdOutstanding (cfg : SnifferCfg) (st0 : MState) (tr : List Event) : Prop :=
  ∃ i pt, recordsAtE cfg st0 tr i = some pt ∧ noRespIn (tr.drop (i + 1)) = true

/-- After any response segment the timestamp is unset: the handler either
entered with it unset (and leaves it untouched) or clears it. -/
theorem processResponse_reqSent (cfg : SnifferCfg) (st : MState) (data : List ℕ)
    (now randn : ℕ) : (processResponse cfg st data now randn).rs.reqSent = none := by
  unfold processResponse
  cases h : st.rs.reqSent with
  | none =>
    simp only [h]
    cases st.rs.qData <;> simp [h]
  | some t0 => simp [h]

/-- After a request segment the timestamp is `some now` exactly when the
segment records a command, and is untouched otherwise. -/
theorem processRequest_reqSent (cfg : SnifferCfg) (st : MState) (data : List ℕ)
    (now : ℕ) (st2 : MState) (h : processRequest cfg st data now = some st2) :
    st2.rs.reqSent = if (recordsInfo st data).isSome then some now else st.rs.reqSent := by
  simp only [processRequest, recordsInfo] at h ⊢
  by_cases hrb : st.rs.respBuffer ≠ none <;> simp [hrb] at h ⊢
  · split at h
    · cases h; simp
    · rename_i pType pData restBuf heq
      by_cases hg : pType = 3
      · subst hg
        simp only [reduceIte] at h ⊢
        rcases hp : parseComQuery pData with _ | r
        · rw [hp] at h; exact absurd h (by simp)
        · rcases r with e | q
          · rw [hp] at h; cases h; simp [hp]
          · rw [hp] at h; cases h; simp [hp, recordCmd]
      · simp [hg] at h ⊢
        cases h; simp
  · split at h
    · cases h; simp
    · rename_i pType pData restBuf heq
      split at h
      · rename_i hgate
        cases h
        simp [hgate]
      · rename_i hgate
        by_cases hg : pType = 3
        · subst hg
          simp only [reduceIte] at h ⊢
          rcases hp : parseComQuery pData with _ | r
          · rw [hp] at h; exact absurd h (by simp)
          · rcases r with e | q
            · rw [hp] at h; cases h; simp [hp]
            · rw [hp] at h; cases h; simp [hp, recordCmd]
        · simp only [if_neg hg] at h ⊢
          simp only [if_neg hgate] at h ⊢
          cases h; simp [recordCmd]
theorem runFlow_cons_some (cfg : SnifferCfg) (st st1 : MState) (e : Event)
    (es : List Event) (h : stepFlow cfg st e = some st1) :
    runFlow cfg st (e :: es) = runFlow cfg st1 es := by
  simp [runFlow, h]

theorem recordsAtE_nil (cfg : SnifferCfg) (st0 : MState) (i : ℕ) :
    recordsAtE cfg st0 [] i = none := by
  simp [recordsAtE, List.get?]

theorem recordsAtE_zero_req (cfg : SnifferCfg) (st0 : MState) (d : List ℕ)
    (now : ℕ) (tr : List Event) :
    recordsAtE cfg st0 (Event.req d now :: tr) 0 = recordsInfo st0 d := rfl

theorem recordsAtE_zero_resp (cfg : SnifferCfg) (st0 : MState) (d : List ℕ)
    (now rn : ℕ) (tr : List Event) :
    recordsAtE cfg st0 (Event.resp d now rn :: tr) 0 = none := rfl

theorem recordsAtE_succ (cfg : SnifferCfg) (st0 st1 : MState) (e : Event)
    (tr : List Event) (i : ℕ) (h : stepFlow cfg st0 e = some st1) :
    recordsAtE cfg st0 (e :: tr) (i + 1) = recordsAtE cfg st1 tr i := by
  simp only [recordsAtE, List.get?_cons_succ, List.take_succ_cons]
  rw [runFlow_cons_some cfg st0 st1 e (tr.take i) h]

theorem exists_nat_cons_split (P : ℕ → Prop) :
    (∃ i, P i) ↔ P 0 ∨ ∃ i, P (i + 1) := by
  constructor
  · rintro ⟨i, h⟩
    cases i with
    | zero => exact Or.inl h
    | succ i => exact Or.inr ⟨i, h⟩
  · rintro (h | ⟨i, h⟩)
    · exact ⟨0, h⟩
    · exact ⟨i + 1, h⟩

/-- The invariant behind the amended claim, generalized over the starting
state: after a trace, the timestamp is set iff either some event of the
trace recorded a command with no later response segment, or it was set at
the start and no response segment occurred at all. -/
theorem reqSent_iff_outstanding (cfg : SnifferCfg) :
    ∀ (tr : List Event) (st0 st : MState), runFlow cfg st0 tr = some st →
    (st.rs.reqSent.isSome = true ↔
      (∃ i pt, recordsAtE cfg st0 tr i = some pt ∧ noRespIn (tr.drop (i + 1)) = true) ∨
      (st0.rs.reqSent.isSome = true ∧ noRespIn tr = true)) := by
  intro tr
  induction tr with
  | nil =>
    intro st0 st h
    simp only [runFlow, Option.some.injEq] at h
    subst h
    simp [recordsAtE_nil, noRespIn]
  | cons e tr ih =>
    intro st0 st h
    cases hs : stepFlow cfg st0 e with
    | none => rw [runFlow, hs] at h; exact absurd h (by simp)
    | some st1 =>
      rw [runFlow_cons_some cfg st0 st1 e tr hs] at h
      have IH := ih st1 st h
      have hsplit : (∃ i pt, recordsAtE cfg st0 (e :: tr) i = some pt ∧
          noRespIn ((e :: tr).drop (i + 1)) = true) ↔
          ((∃ pt, recordsAtE cfg st0 (e :: tr) 0 = some pt) ∧ noRespIn tr = true) ∨
          (∃ i pt, recordsAtE cfg st1 tr i = some pt ∧ noRespIn (tr.drop (i + 1)) = true) := by
        rw [show (∃ i pt, recordsAtE cfg st0 (e :: tr) i = some pt ∧
            noRespIn ((e :: tr).drop (i + 1)) = true) ↔ _ from
          exists_nat_cons_split _]
        constructor
        · rintro (⟨pt, h0, hn⟩ | ⟨i, pt, hi, hn⟩)
          · exact Or.inl ⟨⟨pt, h0⟩, by simpa using hn⟩
          · exact Or.inr ⟨i, pt, by rwa [recordsAtE_succ cfg st0 st1 e tr i hs] at hi,
              by simpa using hn⟩
        · rintro (⟨⟨pt, h0⟩, hn⟩ | ⟨i, pt, hi, hn⟩)
          · exact Or.inl ⟨pt, h0, by simpa using hn⟩
          · exact Or.inr ⟨i, pt, by rwa [recordsAtE_succ cfg st0 st1 e tr i hs], by simpa using hn⟩
      cases e with
      | resp d now rn =>
        have hst1 : st1 = processResponse cfg st0 d now rn := by
          simpa [stepFlow] using hs.symm
        have hclear : st1.rs.reqSent = none := by
          rw [hst1]; exact processResponse_reqSent cfg st0 d now rn
        rw [IH, hsplit]
        simp [recordsAtE_zero_resp, noRespIn, isRespE, hclear]
      | req d now =>
        have hbr := processRequest_reqSent cfg st0 d now st1 (by simpa [stepFlow] using hs)
        rw [IH, hsplit]
        simp only [recordsAtE_zero_req, noRespIn, isRespE, Bool.not_false, Bool.true_and]
        cases hrec : (recordsInfo st0 d).isSome with
        | true =>
          rw [hrec] at hbr
          simp only [if_true, ite_true] at hbr
          have h1some : st1.rs.reqSent.isSome = true := by rw [hbr]; rfl
          rcases Option.isSome_iff_exists.mp hrec with ⟨pt0, hpt0⟩
          rw [h1some]
          constructor
          · rintro (hEx | ⟨_, hn⟩)
            · exact Or.inl (Or.inr hEx)
            · exact Or.inl (Or.inl ⟨⟨pt0, hpt0⟩, hn⟩)
          · rintro ((⟨_, hn⟩ | hEx) | ⟨_, hn⟩)
            · exact Or.inr ⟨rfl, hn⟩
            · exact Or.inl hEx
            · exact Or.inr ⟨rfl, hn⟩
        | false =>
          rw [hrec] at hbr
          simp at hbr
          have hnone : recordsInfo st0 d = none :=
            Option.not_isSome_iff_eq_none.mp (by simp [hrec])
          rw [hbr]
          constructor
          · rintro (hEx | hconj)
            · exact Or.inl (Or.inr hEx)
            · exact Or.inr hconj
          · rintro ((⟨⟨pt, h0⟩, hn⟩ | hEx) | hconj)
            · rw [hnone] at h0; exact absurd h0 (by simp)
            · exact Or.inl hEx
            · exact Or.inr hconj
/-! ## Claim theorems -/

/-- A minimal configuration: non-verbose, cleaned queries, fingerprint =
canonicalized query text. -/
def cfgQ : SnifferCfg :=
  { verbose := false, noclean := false, dirty := false, fmt := [FmtItem.fquery] }

/-- A three-event trace: a framed `COM_QUERY` request, a response pairing
it, then a framed `COM_PING` (command byte `0x0e`) request. -/
def trPing : List Event :=
  [Event.req [2, 0, 0, 0, 3, 97] 5, Event.resp [1] 9 0, Event.req [1, 0, 0, 0, 14] 12]

/-- C1, counterexample: after `COM_QUERY` / response / `COM_PING`, the
outstanding-request timestamp is set although no `COM_QUERY` is recorded
with no response paired since — `processRequest` records a timestamp for
every successfully carved command once the flow is synced, not only for
`COM_QUERY`. -/
theorem C1_counterexample :
    ((runFlow cfgQ (initState [] []) trPing).map fun st => st.rs.reqSent.isSome)
        = some true
      ∧ ¬ comQueryOutstanding cfgQ (initState [] []) trPing := by
  constructor
  · decide
  · rintro ⟨i, hi, hn⟩
    match i with
    | 0 => exact absurd hn (by decide)
    | 1 => exact absurd hi (by decide)
    | 2 => exact absurd hi (by decide)
    | (n + 3) =>
      have hz : recordsAtE cfgQ (initState [] []) trPing (n + 3) = none := rfl
      rw [hz] at hi
      exact absurd hi (by simp)

/-- C1, amended: the outstanding-request timestamp is set iff some request
segment of the trace recorded a command — any command once the flow is
synced, with `COM_QUERY` required only to sync and a `COM_QUERY` payload
required to decode — and no response segment has been processed since;
processing a response segment while the timestamp is set clears it. -/
theorem C1_amended :
    (∀ (cfg : SnifferCfg) (hp ip : List ℕ) (tr : List Event) (st : MState),
        runFlow cfg (initState hp ip) tr = some st →
        (st.rs.reqSent.isSome = true ↔ cmdOutstanding cfg (initState hp ip) tr))
    ∧ (∀ (cfg : SnifferCfg) (st : MState) (d : List ℕ) (now rn : ℕ),
        st.rs.reqSent.isSome = true →
        (processResponse cfg st d now rn).rs.reqSent = none) := by
  constructor
  · intro cfg hp ip tr st h
    rw [reqSent_iff_outstanding cfg tr (initState hp ip) st h]
    simp [initState, cmdOutstanding]
  · intro cfg st d now rn _
    exact processResponse_reqSent cfg st d now rn

/-- Witness for C1: on the one-event trace holding a framed `COM_QUERY`,
the amended characterization is satisfied and the theorem yields a set
timestamp. -/
theorem C1_amended_witness :
    ((runFlow cfgQ (initState [] []) [Event.req [2, 0, 0, 0, 3, 97] 5]).map
        fun st => st.rs.reqSent.isSome) = some true := by
  rcases hr : runFlow cfgQ (initState [] []) [Event.req [2, 0, 0, 0, 3, 97] 5] with _ | st
  · have hsome : (runFlow cfgQ (initState [] []) [Event.req [2, 0, 0, 0, 3, 97] 5]).isSome
        = true := by decide
    rw [hr] at hsome
    exact absurd hsome (by simp)
  · have hset : st.rs.reqSent.isSome = true :=
      (C1_amended.1 cfgQ [] [] [Event.req [2, 0, 0, 0, 3, 97] 5] st hr).mpr
        ⟨0, 3, by decide, rfl⟩
    simp [hset]

/-- C5, code bug: a `COM_QUERY` for `"hello"` split across two request
segments.  The code overwrites `rs.reqBuffer` with each new segment
(`rs.reqBuffer = data`), so after both segments the buffer holds only the
second segment, nothing was recorded and no query was counted — while the
append semantics the spec describes would have framed the command, as the
final conjunct shows. -/
theorem C5_code_bug :
    ((runFlow cfgQ (initState [] [])
        [Event.req [6, 0, 0, 0, 3, 104, 101] 1, Event.req [108, 108, 111] 2]).map
        fun st => (st.rs.reqBuffer, st.rs.reqSent.isSome, st.g.queryCount))
      = some ([108, 108, 111], false, 0)
    ∧ carvePacket ([6, 0, 0, 0, 3, 104, 101] ++ [108, 108, 111])
      = some (3, strB "hello", []) := by
  constructor
  · decide
  · decide

/-- C3: the framer reports incomplete exactly on the claimed conditions
(fewer than 5 bytes, zero declared length, or fewer than `L + 4` bytes
buffered; the functional embedding returns `none` there, leaving the
caller's buffer unchanged), and otherwise returns the command byte `B[4]`,
the `L - 1` payload bytes after it, and the buffer with exactly the first
`L + 4` bytes removed. -/
theorem C3_carvePacket (B : List ℕ) :
    (B.length < 5 ∨ size24 B = 0 ∨ B.length < size24 B + 4 → carvePacket B = none)
    ∧ (5 ≤ B.length → size24 B ≠ 0 → size24 B + 4 ≤ B.length →
        carvePacket B
          = some (B.getD 4 0, (B.drop 5).take (size24 B - 1), B.drop (size24 B + 4))
        ∧ ((B.drop 5).take (size24 B - 1)).length = size24 B - 1) := by
  constructor
  · intro h
    match B, h with
    | [], _ => rfl
    | [_], _ => rfl
    | [_, _], _ => rfl
    | [_, _, _], _ => rfl
    | [_, _, _, _], _ => rfl
    | b0 :: b1 :: b2 :: b3 :: b4 :: rest, h =>
      have hlen : ¬ (b0 :: b1 :: b2 :: b3 :: b4 :: rest).length < 5 := by
        simp [List.length_cons]
      have hcond : size24 (b0 :: b1 :: b2 :: b3 :: b4 :: rest) = 0 ∨
          (b0 :: b1 :: b2 :: b3 :: b4 :: rest).length
            < size24 (b0 :: b1 :: b2 :: b3 :: b4 :: rest) + 4 := by
        rcases h with h | h | h
        · exact absurd h hlen
        · exact Or.inl h
        · exact Or.inr h
      simp only [carvePacket]
      rw [if_pos]
      exact hcond
  · intro h5 hz hfit
    match B, h5 with
    | b0 :: b1 :: b2 :: b3 :: b4 :: rest, _ =>
      constructor
      · simp only [carvePacket]
        rw [if_neg (by push_neg; exact ⟨hz, by omega⟩)]
        refine congrArg some ?_
        refine congrArg (Prod.mk _) (congrArg₂ Prod.mk ?_ rfl)
        rw [List.drop_take]
        congr 1
      · rw [List.length_take, List.length_drop]
        simp only [List.length_cons] at hfit ⊢
        omega

/-- Witness for C3 on the framed `COM_QUERY "hello"` buffer. -/
theorem C3_carvePacket_witness :
    carvePacket [6, 0, 0, 0, 3, 104, 101, 108, 108, 111]
      = some (3, [104, 101, 108, 108, 111], []) ∧ carvePacket [1, 0, 0] = none := by
  constructor
  · exact (((C3_carvePacket [6, 0, 0, 0, 3, 104, 101, 108, 108, 111]).2
      (by decide) (by decide) (by decide)).1).trans (by decide)
  · exact (C3_carvePacket [1, 0, 0]).1 (by decide)

/-- C6, code bug: the empty format template is replaced by the fallback
`"#b:#k"`, whose specifiers are unrecognized and pass through literally,
so the parsed item list is the single literal `"#b:#k"` — not the
`SOURCE`, `":"`, `QUERY` list that the advertised default `"#s:#q"`
produces (the design notes flag this fallback as a probable bug). -/
theorem C6_code_bug :
    parseFormat (strB "") = [FmtItem.fstr (strB "#b:#k")]
    ∧ parseFormat (strB "#s:#q")
      = [FmtItem.fsource, FmtItem.fstr (strB ":"), FmtItem.fquery]
    ∧ parseFormat (strB "") ≠ parseFormat (strB "#s:#q") := by
  refine ⟨by decide, by decide, by decide⟩

/-- C2, counterexample: for the payload `00 01` (first byte in
`0x00..=0x1F`, `parameter_count = 0`, `parameter_set_count = 1`, empty
remainder) the claim says the (empty) remainder is returned as the query
text, but the decoder fails with `incomplete COM_QUERY: missing query
text`. -/
theorem C2_counterexample :
    parseComQuery [0, 1] = some (Except.error ComQueryErr.missingQueryText)
    ∧ parseComQuery [0, 1] ≠ some (Except.ok []) := by
  refine ⟨by decide, by decide⟩

/-- C2, amended: a first byte in `0x20..=0xFA` returns the whole payload;
the attribute path is taken for first bytes below `0x20` or at/above
`0xFB` (hence also `0xFF`); on it, a NULL `parameter_count` (first byte
`0xFB`) falls back to returning the whole payload; otherwise, after
reading `parameter_count`, the decoder fails if the payload ends, fails if
`parameter_set_count` is NULL, fails with `unsupported parameterized
query` when `parameter_count` is nonzero, and when `parameter_count` is
zero returns the remainder as query text if it is non-empty, failing
otherwise. -/
theorem C2_amended :
    (∀ (b : ℕ) (rest : List ℕ), 0x20 ≤ b → b < 0xfb →
        parseComQuery (b :: rest) = some (Except.ok (b :: rest)))
    ∧ (∀ (rest : List ℕ), parseComQuery (0xfb :: rest) = some (Except.ok (0xfb :: rest)))
    ∧ (∀ (b : ℕ) (rest : List ℕ) (pc n : ℕ),
        (b < 0x20 ∨ 0xfb ≤ b) →
        LengthEncodedInt (b :: rest) = some (pc, false, n) → 0 < n →
        (((b :: rest).length ≤ n →
            parseComQuery (b :: rest) = some (Except.error ComQueryErr.missingParamSetCount))
         ∧ (∀ (psc n2 : ℕ) (isN2 : Bool), n < (b :: rest).length →
            LengthEncodedInt ((b :: rest).drop n) = some (psc, isN2, n2) →
            (isN2 = true →
              parseComQuery (b :: rest) = some (Except.error ComQueryErr.paramSetCountNull))
            ∧ (isN2 = false → 0 < pc →
              parseComQuery (b :: rest)
                = some (Except.error (ComQueryErr.unsupportedParams pc)))
            ∧ (isN2 = false → pc = 0 → (b :: rest).length ≤ n + n2 →
              parseComQuery (b :: rest) = some (Except.error ComQueryErr.missingQueryText))
            ∧ (isN2 = false → pc = 0 → n + n2 < (b :: rest).length →
              parseComQuery (b :: rest) = some (Except.ok ((b :: rest).drop (n + n2))))))) := by
  refine ⟨?_, ?_, ?_⟩
  · intro b rest h1 h2
    simp only [parseComQuery]
    rw [if_neg (by omega)]
  · intro rest
    simp [parseComQuery, LengthEncodedInt]
  · intro b rest pc n hattr hlei hn
    constructor
    · intro hshort
      simp only [parseComQuery]
      rw [if_pos hattr, hlei]
      simp only [Bool.false_eq_true, false_or]
      rw [if_neg (by omega), if_pos hshort]
    · intro psc n2 isN2 hlong hlei2
      refine ⟨?_, ?_, ?_, ?_⟩
      · intro hnull
        subst hnull
        simp only [parseComQuery]
        rw [if_pos hattr, hlei]
        simp only [Bool.false_eq_true, false_or]
        rw [if_neg (by omega), if_neg (by omega), hlei2]
        simp
      · intro hnn hpc
        subst hnn
        simp only [parseComQuery]
        rw [if_pos hattr, hlei]
        simp only [Bool.false_eq_true, false_or]
        rw [if_neg (by omega), if_neg (by omega), hlei2]
        simp only [Bool.false_eq_true, if_false, ite_false]
        rw [if_pos hpc]
      · intro hnn hpc hend
        subst hnn; subst hpc
        simp only [parseComQuery]
        rw [if_pos hattr, hlei]
        simp only [Bool.false_eq_true, false_or]
        rw [if_neg (by omega), if_neg (by omega), hlei2]
        simp only [Bool.false_eq_true, if_false, ite_false]
        rw [if_neg (by omega), if_pos hend]
      · intro hnn hpc hmore
        subst hnn; subst hpc
        simp only [parseComQuery]
        rw [if_pos hattr, hlei]
        simp only [Bool.false_eq_true, false_or]
        rw [if_neg (by omega), if_neg (by omega), hlei2]
        simp only [Bool.false_eq_true, if_false, ite_false]
        rw [if_neg (by omega), if_neg (by omega)]

/-- Witness for C2: a legacy payload, the NULL marker, and a complete
attribute-prefixed payload `00 01 's'`. -/
theorem C2_amended_witness :
    parseComQuery (strB "select 1") = some (Except.ok (strB "select 1"))
    ∧ parseComQuery [0xfb, 83] = some (Except.ok [0xfb, 83])
    ∧ parseComQuery [0, 1, 115] = some (Except.ok [115]) := by
  refine ⟨?_, C2_amended.2.1 [83], ?_⟩
  · have := C2_amended.1 115 (strB "elect 1") (by omega) (by omega)
    rw [show (115 : ℕ) :: strB "elect 1" = strB "select 1" by decide] at this
    exact this
  · have := ((((C2_amended.2.2 0 [1, 115] 0 1 (by omega) (by decide) (by omega)).2
      1 1 false (by decide) (by decide)).2.2.2) rfl rfl (by decide))
    simpa using this

theorem decimalAux_digit_bounds :
    ∀ (fuel n c : ℕ), c ∈ decimalAux fuel n → 48 ≤ c ∧ c ≤ 57 := by
  intro fuel
  induction fuel with
  | zero =>
    intro n c hc
    simp only [decimalAux, List.mem_singleton] at hc
    subst hc
    have := Nat.mod_lt n (show 0 < 10 by omega)
    omega
  | succ fuel ih =>
    intro n c hc
    simp only [decimalAux] at hc
    split at hc
    · simp only [List.mem_singleton] at hc
      subst hc
      omega
    · rcases List.mem_append.mp hc with h | h
      · exact ih _ c h
      · simp only [List.mem_singleton] at h
        subst h
        have := Nat.mod_lt n (show 0 < 10 by omega)
        omega

theorem decimal_digit_bounds (n c : ℕ) (h : c ∈ decimal n) : 48 ≤ c ∧ c ≤ 57 :=
  decimalAux_digit_bounds n n c h

theorem leadsWith_mem : ∀ (pat l : List ℕ), leadsWith pat l = true →
    ∀ c ∈ pat, c ∈ l := by
  intro pat
  induction pat with
  | nil => intro l _ c hc; simp at hc
  | cons p ps ih =>
    intro l h c hc
    match l with
    | [] => simp [leadsWith] at h
    | x :: xs =>
      simp only [leadsWith, Bool.and_eq_true, beq_iff_eq] at h
      rcases List.mem_cons.mp hc with rfl | hc
      · exact h.1 ▸ List.mem_cons_self _ _
      · exact List.mem_cons_of_mem _ (ih xs h.2 c hc)

theorem containsSeq_mem : ∀ (l pat : List ℕ), containsSeq l pat = true →
    ∀ c ∈ pat, c ∈ l := by
  intro l
  induction l with
  | nil =>
    intro pat h c hc
    match pat, h with
    | [], _ => simp at hc
  | cons x xs ih =>
    intro pat h c hc
    rw [containsSeq] at h
    rcases Bool.or_eq_true_iff.mp h with h | h
    · exact leadsWith_mem pat (x :: xs) h c hc
    · exact List.mem_cons_of_mem _ (ih pat h c hc)

theorem not_mem_102_lidSeg (lid : ℕ) : (102 : ℕ) ∉ lidSeg lid := by
  intro h
  simp only [lidSeg, List.mem_append, or_assoc] at h
  rcases h with h | h | h | h | h
  · exact absurd h (by decide)
  · exact absurd h (by decide)
  · exact absurd h (by decide)
  · exact absurd ((decimal_digit_bounds _ _ h).2) (by omega)
  · exact absurd h (by decide)

theorem not_mem_102_wSeg (w : ℕ) : (102 : ℕ) ∉ wSeg w := by
  intro h
  simp only [wSeg, List.mem_append, or_assoc] at h
  rcases h with h | h | h | h | h
  · exact absurd h (by decide)
  · exact absurd h (by decide)
  · exact absurd ((decimal_digit_bounds _ _ h).2) (by omega)
  · exact absurd h (by decide)
  · exact absurd h (by decide)

theorem not_mem_68_arSeg (ar : ℕ) : (68 : ℕ) ∉ arSeg ar := by
  intro h
  simp only [arSeg, List.mem_append, or_assoc] at h
  rcases h with h | h | h | h | h
  · exact absurd h (by decide)
  · exact absurd h (by decide)
  · exact absurd ((decimal_digit_bounds _ _ h).2) (by omega)
  · exact absurd h (by decide)
  · exact absurd h (by decide)

theorem not_mem_68_wSeg (w : ℕ) : (68 : ℕ) ∉ wSeg w := by
  intro h
  simp only [wSeg, List.mem_append, or_assoc] at h
  rcases h with h | h | h | h | h
  · exact absurd h (by decide)
  · exact absurd h (by decide)
  · exact absurd ((decimal_digit_bounds _ _ h).2) (by omega)
  · exact absurd h (by decide)
  · exact absurd h (by decide)

/-- C7: decoding the OK payload `00 03 64 00 00 01 00` mentions affected
rows 3, last insert id 100 and warnings 1; and for every OK payload the
output mentions affected rows only when the decoded affected-rows value is
nonzero, and mentions the last insert id only when the decoded
last-insert-id value is nonzero. -/
theorem C7_parseOKPacket :
    ((parseOKPacket [0, 3, 100, 0, 0, 1, 0]).map fun o =>
        (containsSeq o (strB "3 row(s) affected"),
          containsSeq o (strB "last insert ID: 100"),
          containsSeq o (strB "1 warning(s)"))) = some (true, true, true)
    ∧ (∀ (d out : List ℕ), parseOKPacket d = some out →
        (containsSeq out (strB "row(s) affected") = true →
          ∃ ar lid w, okFields d = some (ar, lid, w) ∧ 0 < ar)
        ∧ (containsSeq out (strB "last insert ID") = true →
          ∃ ar lid w, okFields d = some (ar, lid, w) ∧ 0 < lid)) := by
  constructor
  · decide
  · intro d out h
    rw [parseOKPacket] at h
    split at h
    · cases h
      constructor
      · intro hc; exact absurd hc (by decide)
      · intro hc; exact absurd hc (by decide)
    · cases hok : okFields d with
      | none => rw [hok] at h; exact absurd h (by simp)
      | some v =>
        obtain ⟨ar, lid, w⟩ := v
        rw [hok] at h
        cases h
        constructor
        · intro hc
          refine ⟨ar, lid, w, rfl, ?_⟩
          by_contra har
          have har0 : ar = 0 := by omega
          subst har0
          have h102 : (102 : ℕ) ∈
              (colorGreen ++ strB "OK" ++ colorDefault)
              ++ (if 0 < 0 then arSeg 0 else [])
              ++ (if 0 < lid then lidSeg lid else [])
              ++ (if 0 < w then wSeg w else []) :=
            containsSeq_mem _ _ hc 102 (by decide)
          simp only [show ¬ (0 : ℕ) < 0 by omega, if_false, ite_false,
            List.append_nil, List.nil_append, List.mem_append] at h102
          rcases h102 with (h102 | h102) | h102
          · exact absurd h102 (by decide)
          · split at h102
            · exact not_mem_102_lidSeg lid h102
            · simp at h102
          · split at h102
            · exact not_mem_102_wSeg w h102
            · simp at h102
        · intro hc
          refine ⟨ar, lid, w, rfl, ?_⟩
          by_contra hlid
          have hlid0 : lid = 0 := by omega
          subst hlid0
          have h68 : (68 : ℕ) ∈
              (colorGreen ++ strB "OK" ++ colorDefault)
              ++ (if 0 < ar then arSeg ar else [])
              ++ (if 0 < 0 then lidSeg 0 else [])
              ++ (if 0 < w then wSeg w else []) :=
            containsSeq_mem _ _ hc 68 (by decide)
          simp only [show ¬ (0 : ℕ) < 0 by omega, if_false, ite_false,
            List.append_nil, List.nil_append, List.mem_append] at h68
          rcases h68 with (h68 | h68) | h68
          · exact absurd h68 (by decide)
          · split at h68
            · exact not_mem_68_arSeg ar h68
            · simp at h68
          · split at h68
            · exact not_mem_68_wSeg w h68
            · simp at h68

/-- Witness for C7's universal part at the concrete OK payload. -/
theorem C7_parseOKPacket_witness :
    ∃ ar lid w, okFields [0, 3, 100, 0, 0, 1, 0] = some (ar, lid, w) ∧ 0 < ar := by
  rcases hp : parseOKPacket [0, 3, 100, 0, 0, 1, 0] with _ | out
  · have : (parseOKPacket [0, 3, 100, 0, 0, 1, 0]).isSome = true := by decide
    rw [hp] at this
    exact absurd this (by simp)
  · refine (C7_parseOKPacket.2 [0, 3, 100, 0, 0, 1, 0] out hp).1 ?_
    have : containsSeq out (strB "row(s) affected")
        = ((parseOKPacket [0, 3, 100, 0, 0, 1, 0]).map fun o =>
            containsSeq o (strB "row(s) affected")).getD false := by
      rw [hp]; rfl
    rw [this]
    decide

theorem ctFold_zeros : ∀ (n : ℕ) (acc : CTAcc),
    (List.replicate n 0).foldl ctStep acc = acc := by
  intro n
  induction n with
  | zero => intro acc; rfl
  | succ n ih =>
    intro acc
    rw [List.replicate_succ, List.foldl_cons]
    rw [show ctStep acc 0 = acc from rfl]
    exact ih acc

/-- Loop invariant of `calculateTimes`: as long as the running total has
not overflowed, the processed slots keep `counts * min ≤ total ≤
counts * max`, and a nonzero slot forces `has_min`. -/
theorem ctFold_inv :
    ∀ (l : List ℕ) (acc : CTAcc),
      (acc.hasMin = false → acc.counts = 0 ∧ acc.total = 0) →
      (acc.hasMin = true → 0 < acc.counts) →
      acc.counts * acc.mn ≤ acc.total →
      acc.total ≤ acc.counts * acc.mx →
      acc.total + l.sum < 2 ^ 64 →
      ((l.foldl ctStep acc).hasMin = false →
          (l.foldl ctStep acc).counts = 0 ∧ (l.foldl ctStep acc).total = 0)
      ∧ ((l.foldl ctStep acc).hasMin = true → 0 < (l.foldl ctStep acc).counts)
      ∧ (l.foldl ctStep acc).counts * (l.foldl ctStep acc).mn ≤ (l.foldl ctStep acc).total
      ∧ (l.foldl ctStep acc).total ≤ (l.foldl ctStep acc).counts * (l.foldl ctStep acc).mx
      ∧ ((∃ v ∈ l, v ≠ 0) ∨ acc.hasMin = true → (l.foldl ctStep acc).hasMin = true) := by
  intro l
  induction l with
  | nil =>
    intro acc h1 h2 h3 h4 _
    refine ⟨h1, h2, h3, h4, ?_⟩
    rintro (⟨v, hv, _⟩ | h)
    · simp at hv
    · exact h
  | cons v rest ih =>
    intro acc h1 h2 h3 h4 hsum
    rw [List.foldl_cons]
    by_cases hv : v = 0
    · subst hv
      rw [show ctStep acc 0 = acc from rfl]
      have := ih acc h1 h2 h3 h4 (by simp only [List.sum_cons] at hsum; omega)
      refine ⟨this.1, this.2.1, this.2.2.1, this.2.2.2.1, ?_⟩
      rintro (⟨w, hw, hwne⟩ | h)
      · rcases List.mem_cons.mp hw with rfl | hw
        · exact absurd rfl hwne
        · exact this.2.2.2.2 (Or.inl ⟨w, hw, hwne⟩)
      · exact this.2.2.2.2 (Or.inr h)
    · have hstep : ctStep acc v =
          { counts := acc.counts + 1
            total := (acc.total + v) % 2 ^ 64
            mn := if v < acc.mn ∨ acc.hasMin = false then v else acc.mn
            mx := if acc.mx < v then v else acc.mx
            hasMin := true } := by
        rw [ctStep, if_neg hv]
      have hnowrap : (acc.total + v) % 2 ^ 64 = acc.total + v := by
        apply Nat.mod_eq_of_lt
        simp only [List.sum_cons] at hsum
        omega
      rw [hstep, hnowrap] at *
      have hmn' : (acc.counts + 1) *
          (if v < acc.mn ∨ acc.hasMin = false then v else acc.mn) ≤ acc.total + v := by
        split
        · rename_i hc
          rcases hc with hc | hc
          · have : acc.counts * v ≤ acc.counts * acc.mn :=
              Nat.mul_le_mul_left _ (le_of_lt hc)
            calc (acc.counts + 1) * v = acc.counts * v + v := by ring
              _ ≤ acc.counts * acc.mn + v := by omega
              _ ≤ acc.total + v := by omega
          · rcases h1 hc with ⟨hc0, ht0⟩
            rw [hc0, ht0]
            omega
        · rename_i hc
          push_neg at hc
          calc (acc.counts + 1) * acc.mn = acc.counts * acc.mn + acc.mn := by ring
            _ ≤ acc.total + acc.mn := by omega
            _ ≤ acc.total + v := by omega
      have hmx' : acc.total + v ≤ (acc.counts + 1) * (if acc.mx < v then v else acc.mx) := by
        split
        · rename_i hc
          have : acc.counts * acc.mx ≤ acc.counts * v := Nat.mul_le_mul_left _ (le_of_lt hc)
          calc acc.total + v ≤ acc.counts * acc.mx + v := by omega
            _ ≤ acc.counts * v + v := by omega
            _ = (acc.counts + 1) * v := by ring
        · rename_i hc
          push_neg at hc
          calc acc.total + v ≤ acc.counts * acc.mx + v := by omega
            _ ≤ acc.counts * acc.mx + acc.mx := by omega
            _ = (acc.counts + 1) * acc.mx := by ring
      have := ih
        { counts := acc.counts + 1
          total := acc.total + v
          mn := if v < acc.mn ∨ acc.hasMin = false then v else acc.mn
          mx := if acc.mx < v then v else acc.mx
          hasMin := true }
        (fun hfalse => Bool.noConfusion hfalse) (fun _ => Nat.succ_pos _)
        (by simpa using hmn') (by simpa using hmx')
        (by simp only [List.sum_cons] at hsum; simp; omega)
      refine ⟨this.1, this.2.1, this.2.2.1, this.2.2.2.1, ?_⟩
      intro _
      exact this.2.2.2.2 (Or.inr rfl)

/-- C9, counterexample: a full 10000-slot reservoir holding two samples of
`2^63` nanoseconds.  The `uint64` running total wraps to zero, so the
computed average (0 ms) drops below the computed minimum (`2^63 / 10^6`
ms), violating `min ≤ avg`. -/
theorem C9_counterexample :
    ¬ ((calculateTimes (2 ^ 63 :: 2 ^ 63 :: List.replicate 9998 0)).1
        ≤ (calculateTimes (2 ^ 63 :: 2 ^ 63 :: List.replicate 9998 0)).2.1) := by
  have hf : (2 ^ 63 :: 2 ^ 63 :: List.replicate 9998 0).foldl ctStep ⟨0, 0, 0, 0, false⟩
      = ⟨2, 0, 2 ^ 63, 2 ^ 63, true⟩ := by
    rw [List.foldl_cons, List.foldl_cons, ctFold_zeros]
    decide
  simp only [calculateTimes, hf]
  norm_num

/-- C9, amended: for every 10000-slot reservoir with at least one nonzero
slot whose nonzero samples sum below `2^64` (so the `uint64` total cannot
wrap), the computed values satisfy `min ≤ avg ≤ max` (exactly, in ℚ; the
float64 conversions and divisions are correctly rounded and monotone). -/
theorem C9_amended (ts : List ℕ) (hlen : ts.length = 10000)
    (hnz : ∃ v ∈ ts, v ≠ 0) (hsum : ts.sum < 2 ^ 64) :
    (calculateTimes ts).1 ≤ (calculateTimes ts).2.1
    ∧ (calculateTimes ts).2.1 ≤ (calculateTimes ts).2.2 := by
  have hinv := ctFold_inv ts ⟨0, 0, 0, 0, false⟩ (fun _ => ⟨rfl, rfl⟩)
    (fun h => absurd h (by decide)) (by decide) (by decide)
    (by simpa using hsum)
  set a := ts.foldl ctStep ⟨0, 0, 0, 0, false⟩ with ha
  have hmin : a.hasMin = true := hinv.2.2.2.2 (Or.inl hnz)
  have hcpos : 0 < a.counts := hinv.2.1 hmin
  have hle1 : a.mn ≤ a.total / a.counts := by
    rw [Nat.le_div_iff_mul_le hcpos]
    calc a.mn * a.counts = a.counts * a.mn := by ring
      _ ≤ a.total := hinv.2.2.1
  have hle2 : a.total / a.counts ≤ a.mx := by
    calc a.total / a.counts ≤ (a.counts * a.mx) / a.counts :=
          Nat.div_le_div_right hinv.2.2.2.1
      _ = a.mx := Nat.mul_div_cancel_left _ hcpos
  simp only [calculateTimes, ← ha, if_pos hcpos]
  constructor
  · gcongr
  · gcongr

/-- Witness for C9 on a reservoir with samples 1 ms and 5 ms. -/
theorem C9_amended_witness :
    (calculateTimes (1000000 :: 5000000 :: List.replicate 9998 0)).1
      ≤ (calculateTimes (1000000 :: 5000000 :: List.replicate 9998 0)).2.1
    ∧ (calculateTimes (1000000 :: 5000000 :: List.replicate 9998 0)).2.1
      ≤ (calculateTimes (1000000 :: 5000000 :: List.replicate 9998 0)).2.2 :=
  C9_amended (1000000 :: 5000000 :: List.replicate 9998 0)
    (by rw [List.length_cons, List.length_cons, List.length_replicate])
    ⟨1000000, List.mem_cons_self _ _, by omega⟩
    (by rw [List.sum_cons, List.sum_cons, List.sum_replicate, smul_zero]; norm_num)

theorem tokens_length_le (vnc : Bool) :
    ∀ (N : ℕ) (q : List ℕ), q.length ≤ N → (tokens vnc q).length ≤ q.length := by
  intro N
  induction N with
  | zero =>
    intro q hq
    have : q = [] := List.length_eq_zero.mp (Nat.le_zero.mp hq)
    subst this
    simp [tokens, tokensAux]
  | succ N ih =>
    intro q hq
    match q with
    | [] => simp [tokens, tokensAux]
    | b :: rest =>
      rw [tokens_cons]
      have hpos := scanToken_pos vnc (b :: rest) (by simp)
      have hdrop := ih ((b :: rest).drop (scanToken vnc (b :: rest)).1)
        (by simp only [List.length_drop, List.length_cons] at *; omega)
      simp only [List.length_cons, List.length_drop] at *
      omega

/-- C10: on every non-empty input (in either cleaning mode) `scanToken`
returns a token length between 1 and the input length, so the token loop
in `cleanupQuery` strictly consumes input and terminates — the embedded
loop `tokens` is total and emits at most one token per input byte. -/
theorem C10_scanToken_bounds :
    (∀ (vnc : Bool) (q : List ℕ), q ≠ [] →
      1 ≤ (scanToken vnc q).1 ∧ (scanToken vnc q).1 ≤ q.length)
    ∧ (∀ (vnc : Bool) (q : List ℕ), (tokens vnc q).length ≤ q.length) := by
  constructor
  · exact scanToken_pos
  · intro vnc q
    exact tokens_length_le vnc q.length q (le_refl _)

/-- Witness for C10 on the token `"select"` and a quoted token. -/
theorem C10_scanToken_bounds_witness :
    (1 ≤ (scanToken false (strB "select * from t")).1
      ∧ (scanToken false (strB "select * from t")).1 ≤ (strB "select * from t").length)
    ∧ (1 ≤ (scanToken false (strB "'unterminated")).1
      ∧ (scanToken false (strB "'unterminated")).1 ≤ (strB "'unterminated").length) :=
  ⟨C10_scanToken_bounds.1 false (strB "select * from t") (by decide),
   C10_scanToken_bounds.1 false (strB "'unterminated") (by decide)⟩

/-! ### Helper lemmas about `replaceQcs` for the `IN (...)` collapse -/

theorem replaceQcs_cons_ne (a : ℕ) (rest : List ℕ)
    (h : leadsWith [63, 44, 32] (a :: rest) = false) :
    replaceQcs (a :: rest) = a :: replaceQcs rest := by
  rw [replaceQcs.eq_def]
  split
  · rename_i rest' heq
    injection heq with h1 h2
    subst h1
    subst h2
    simp [leadsWith] at h
  · rename_i c' rest' hno heq
    injection heq with h1 h2
    subst h1
    subst h2
    rfl
  · rename_i heq
    cases heq

theorem leadsWith_qcs_eq_false (a : ℕ) (rest tail : List ℕ)
    (h : leadsWith [63, 44, 32] (a :: rest) = false)
    (hlong : 2 ≤ rest.length) :
    leadsWith [63, 44, 32] (a :: rest ++ tail) = false := by
  match rest, hlong with
  | b :: c :: r, _ =>
    simp only [leadsWith, Bool.and_eq_false_iff] at h ⊢
    rcases h with h | h
    · exact Or.inl h
    · rcases h with h | h
      · exact Or.inr (Or.inl h)
      · rcases h with h | h
        · exact Or.inr (Or.inr (Or.inl h))
        · simp [leadsWith] at h

/-- Removal of `"?, "` distributes over an append whose right part starts
with `?` (= byte 63): the three-byte pattern cannot straddle the boundary
because its second byte is a comma and its third a space. -/
theorem replaceQcs_append_q :
    ∀ (N : ℕ) (A T : List ℕ), A.length ≤ N → T.head? = some 63 →
      replaceQcs (A ++ T) = replaceQcs A ++ replaceQcs T := by
  intro N
  induction N with
  | zero =>
    intro A T hA _
    have : A = [] := List.length_eq_zero.mp (Nat.le_zero.mp hA)
    subst this
    rfl
  | succ N ih =>
    intro A T hA hT
    match T, hT with
    | 63 :: T', _ =>
      match A with
      | [] => rfl
      | [a] =>
        rw [List.cons_append, List.nil_append,
          replaceQcs_cons_ne a (63 :: T') (by simp [leadsWith]),
          replaceQcs_cons_ne a [] (by simp [leadsWith])]
        rfl
      | [a, b] =>
        rw [List.cons_append, List.cons_append, List.nil_append,
          replaceQcs_cons_ne a (b :: 63 :: T') (by simp [leadsWith]),
          replaceQcs_cons_ne b (63 :: T') (by simp [leadsWith]),
          replaceQcs_cons_ne a [b] (by simp [leadsWith]),
          replaceQcs_cons_ne b [] (by simp [leadsWith])]
        rfl
      | a :: b :: c :: A'' =>
        by_cases habc : a = 63 ∧ b = 44 ∧ c = 32
        · obtain ⟨rfl, rfl, rfl⟩ := habc
          show replaceQcs (63 :: 44 :: 32 :: (A'' ++ 63 :: T'))
            = replaceQcs (63 :: 44 :: 32 :: A'') ++ replaceQcs (63 :: T')
          rw [show ∀ x, replaceQcs (63 :: 44 :: 32 :: x) = replaceQcs x from fun _ => rfl,
            show ∀ x, replaceQcs (63 :: 44 :: 32 :: x) = replaceQcs x from fun _ => rfl]
          exact ih A'' (63 :: T') (by simp at hA ⊢; omega) rfl
        · have hlw : leadsWith [63, 44, 32] (a :: b :: c :: A'') = false := by
            simp only [leadsWith, Bool.and_eq_false_iff, beq_eq_false_iff_ne, ne_eq]
            by_cases h1 : a = 63
            · by_cases h2 : b = 44
              · by_cases h3 : c = 32
                · exact absurd ⟨h1, h2, h3⟩ habc
                · exact Or.inr (Or.inr (Or.inl fun hh => h3 hh.symm))
              · exact Or.inr (Or.inl fun hh => h2 hh.symm)
            · exact Or.inl fun hh => h1 hh.symm
          have hlw2 : leadsWith [63, 44, 32] (a :: (b :: c :: A'') ++ 63 :: T') = false :=
            leadsWith_qcs_eq_false a (b :: c :: A'') (63 :: T') hlw (by simp)
          rw [List.cons_append, replaceQcs_cons_ne a ((b :: c :: A'') ++ 63 :: T')
              (by simpa using hlw2),
            replaceQcs_cons_ne a (b :: c :: A'') hlw]
          rw [List.cons_append]
          exact congrArg (a :: ·) (ih (b :: c :: A'') (63 :: T')
            (by simp at hA ⊢; omega) rfl)

/-- The literal sequence `"?, "` repeated `k` times. -/
def repQCS : ℕ → List ℕ
  | 0 => []
  | k + 1 => 63 :: 44 :: 32 :: repQCS k

theorem replaceQcs_repQCS : ∀ (k : ℕ) (X : List ℕ),
    replaceQcs (repQCS k ++ X) = replaceQcs X := by
  intro k
  induction k with
  | zero => intro X; rfl
  | succ k ih =>
    intro X
    show replaceQcs (63 :: 44 :: 32 :: (repQCS k ++ X)) = replaceQcs X
    rw [show ∀ x, replaceQcs (63 :: 44 :: 32 :: x) = replaceQcs x from fun _ => rfl]
    exact ih X

theorem repQCS_append_head (k : ℕ) (B : List ℕ) :
    (repQCS k ++ 63 :: B).head? = some 63 := by
  cases k with
  | zero => rfl
  | succ k => rfl

/-! ### Helper lemmas about `splitNSpace` and `afterColon` for route comments -/

theorem breakSp_cons_ne (c : ℕ) (rest : List ℕ) (h : c ≠ 32) :
    breakSp (c :: rest) = (c :: (breakSp rest).1, (breakSp rest).2) := by
  rw [breakSp.eq_def]
  split
  · rename_i heq; cases heq
  · rename_i r' heq
    injection heq with h1 h2
    subst h2
    exact absurd h1 h
  · rename_i c' r' hno heq
    injection heq with h1 h2
    subst h1
    subst h2
    rfl

theorem breakSp_split (w rest : List ℕ) (h : (32 : ℕ) ∉ w) :
    breakSp (w ++ 32 :: rest) = (w, some rest) := by
  induction w with
  | nil => rfl
  | cons c w' ih =>
    rw [List.cons_append, breakSp_cons_ne c (w' ++ 32 :: rest)
        (fun hc => h (hc ▸ List.mem_cons_self _ _)),
      ih (fun hm => h (List.mem_cons_of_mem _ hm))]

theorem splitNSpace_step (n : ℕ) (w x : List ℕ) (h : (32 : ℕ) ∉ w) :
    splitNSpace (n + 2) (w ++ 32 :: x) = w :: splitNSpace (n + 1) x := by
  rw [splitNSpace, breakSp_split w x h]

theorem afterColon_cons_ne (c : ℕ) (rest : List ℕ) (h : c ≠ 58) :
    afterColon (c :: rest) = afterColon rest := by
  rw [afterColon.eq_def]
  split
  · rename_i heq; cases heq
  · rename_i r' heq
    injection heq with h1 h2
    subst h2
    exact absurd h1 h
  · rename_i c' r' hno heq
    injection heq with h1 h2
    subst h2
    rfl

theorem afterColon_split (hh r : List ℕ) (h : (58 : ℕ) ∉ hh) :
    afterColon (hh ++ 58 :: r) = r := by
  induction hh with
  | nil => rfl
  | cons c hh' ih =>
    rw [List.cons_append, afterColon_cons_ne c (hh' ++ 58 :: r)
        (fun hc => h (hc ▸ List.mem_cons_self _ _)),
      ih (fun hm => h (List.mem_cons_of_mem _ hm))]

/-- The route rewrite fires on `w0 /* hh:r */ rest` and strips `hh:`. -/
theorem routeRewrite_fire (w0 hh r rest : List ℕ)
    (hw : (32 : ℕ) ∉ w0) (hh32 : (32 : ℕ) ∉ hh) (hh58 : (58 : ℕ) ∉ hh)
    (hr32 : (32 : ℕ) ∉ r) :
    routeRewrite (w0 ++ 32 :: ([47, 42] ++ 32 ::
        ((hh ++ 58 :: r) ++ 32 :: ([42, 47] ++ 32 :: rest))))
      = w0 ++ 32 :: ([47, 42] ++ 32 :: (r ++ 32 :: ([42, 47] ++ 32 :: rest))) := by
  have hmid : (32 : ℕ) ∉ hh ++ 58 :: r := by
    intro hm
    rcases List.mem_append.mp hm with hm | hm
    · exact hh32 hm
    · rcases List.mem_cons.mp hm with hm | hm
      · cases hm
      · exact hr32 hm
  have hparts : splitNSpace 5 (w0 ++ 32 :: ([47, 42] ++ 32 ::
      ((hh ++ 58 :: r) ++ 32 :: ([42, 47] ++ 32 :: rest))))
      = [w0, [47, 42], hh ++ 58 :: r, [42, 47], rest] := by
    rw [splitNSpace_step 3 w0 _ hw,
      splitNSpace_step 2 [47, 42] _ (by decide),
      splitNSpace_step 1 (hh ++ 58 :: r) _ hmid,
      splitNSpace_step 0 [42, 47] _ (by decide)]
    rfl
  rw [routeRewrite, hparts]
  rw [if_pos ⟨by simp, rfl, rfl, by simp⟩]
  simp [afterColon_split hh r hh58, List.append_assoc]

/-- The route rewrite does not fire when the comment field has no colon. -/
theorem routeRewrite_nofire (w0 r rest : List ℕ)
    (hw : (32 : ℕ) ∉ w0) (hr32 : (32 : ℕ) ∉ r) (hr58 : (58 : ℕ) ∉ r) :
    routeRewrite (w0 ++ 32 :: ([47, 42] ++ 32 :: (r ++ 32 :: ([42, 47] ++ 32 :: rest))))
      = w0 ++ 32 :: ([47, 42] ++ 32 :: (r ++ 32 :: ([42, 47] ++ 32 :: rest))) := by
  have hparts : splitNSpace 5 (w0 ++ 32 :: ([47, 42] ++ 32 ::
      (r ++ 32 :: ([42, 47] ++ 32 :: rest))))
      = [w0, [47, 42], r, [42, 47], rest] := by
    rw [splitNSpace_step 3 w0 _ hw,
      splitNSpace_step 2 [47, 42] _ (by decide),
      splitNSpace_step 1 r _ hr32,
      splitNSpace_step 0 [42, 47] _ (by decide)]
    rfl
  rw [routeRewrite, hparts]
  rw [if_neg]
  rintro ⟨-, -, -, hany⟩
  simp only [List.getD, List.get?, List.any_eq_true, beq_iff_eq] at hany
  rcases hany with ⟨c, hc, rfl⟩
  exact hr58 hc

/-- Token-level resemblance: same token type, and identical contents for
`WORD` and `OTHER` tokens (whose bytes are emitted verbatim). -/
def tokEquiv (a b : TokenType × List ℕ) : Prop :=
  a.1 = b.1 ∧ ((a.1 = TokenType.word ∨ a.1 = TokenType.other) → a.2 = b.2)

theorem emit_eq_of_tokEquiv (a b : TokenType × List ℕ) (h : tokEquiv a b) :
    emitToken a = emitToken b := by
  obtain ⟨a1, a2⟩ := a
  obtain ⟨b1, b2⟩ := b
  obtain ⟨h1, h2⟩ := h
  dsimp at h1
  subst h1
  cases a1 with
  | word => simp only [emitToken]; exact h2 (Or.inl rfl)
  | other => simp only [emitToken]; exact h2 (Or.inr rfl)
  | quote => rfl
  | number => rfl
  | whitespace => rfl

theorem map_emit_eq_of_forall2 :
    ∀ (l1 l2 : List (TokenType × List ℕ)), List.Forall₂ tokEquiv l1 l2 →
      l1.map emitToken = l2.map emitToken := by
  intro l1 l2 h
  induction h with
  | nil => rfl
  | cons hab _ ih =>
    simp only [List.map_cons]
    rw [emit_eq_of_tokEquiv _ _ hab, ih]

theorem qspace_eq_of_forall2 (q1 q2 : List ℕ)
    (h : List.Forall₂ tokEquiv (tokens false q1) (tokens false q2)) :
    qspaceOf false q1 = qspaceOf false q2 :=
  map_emit_eq_of_forall2 _ _ h

/-- C4, counterexample: two queries that differ only in the number of
comma-separated literals of an `IN (...)` list — written without a space
after the comma — produce different fingerprints, because the final
cleanup removes only the exact three-byte pattern `"?, "`. -/
theorem C4_counterexample :
    cleanupQuery false (strB "select c from t where x in (1,2)")
      ≠ cleanupQuery false (strB "select c from t where x in (1)") := by
  decide

/-- C4, amended: canonicalization identifies queries in each of these
situations.  (1) Queries whose token decompositions agree except in the
contents of NUMBER, QUOTE and WHITESPACE tokens (this covers changed
digits of numeric literals, changed contents of string literals that
still scan as one quoted token, and changed whitespace-run lengths).
(2) Queries whose emitted texts agree except for the number of `"?, "`
repetitions before a final `?` (an `IN (...)` list with comma-space
separators), provided the route rewrite fires on neither.  (3) Queries
whose emitted texts are `w0 /* hh:r */ rest` and `w0 /* r */ rest` with
`hh` and `r` space-free and colon-free as appropriate (a dropped `host:`
prefix).  (4) The concrete `IN` example fingerprints to
`"select * from table where x in (?)"`. -/
theorem C4_amended :
    (∀ (q1 q2 : List ℕ), List.Forall₂ tokEquiv (tokens false q1) (tokens false q2) →
        cleanupQuery false q1 = cleanupQuery false q2)
    ∧ (∀ (q1 q2 A B : List ℕ) (k1 k2 : ℕ),
        (qspaceOf false q1).flatten = A ++ (repQCS k1 ++ 63 :: B) →
        (qspaceOf false q2).flatten = A ++ (repQCS k2 ++ 63 :: B) →
        routeRewrite ((qspaceOf false q1).flatten) = (qspaceOf false q1).flatten →
        routeRewrite ((qspaceOf false q2).flatten) = (qspaceOf false q2).flatten →
        cleanupQuery false q1 = cleanupQuery false q2)
    ∧ (∀ (q1 q2 w0 hh r rest : List ℕ),
        (32 : ℕ) ∉ w0 → (32 : ℕ) ∉ hh → (58 : ℕ) ∉ hh → (32 : ℕ) ∉ r → (58 : ℕ) ∉ r →
        (qspaceOf false q1).flatten = w0 ++ 32 :: ([47, 42] ++ 32 ::
          ((hh ++ 58 :: r) ++ 32 :: ([42, 47] ++ 32 :: rest))) →
        (qspaceOf false q2).flatten = w0 ++ 32 :: ([47, 42] ++ 32 ::
          (r ++ 32 :: ([42, 47] ++ 32 :: rest))) →
        cleanupQuery false q1 = cleanupQuery false q2)
    ∧ cleanupQuery false (strB "select * from table where x in (1, 2, 'foo')")
      = strB "select * from table where x in (?)" := by
  refine ⟨?_, ?_, ?_, by decide⟩
  · intro q1 q2 h
    rw [cleanupQuery, cleanupQuery, qspace_eq_of_forall2 q1 q2 h]
  · intro q1 q2 A B k1 k2 h1 h2 hr1 hr2
    rw [cleanupQuery, cleanupQuery, hr1, hr2, h1, h2,
      replaceQcs_append_q A.length A (repQCS k1 ++ 63 :: B) (le_refl _)
        (repQCS_append_head k1 B),
      replaceQcs_append_q A.length A (repQCS k2 ++ 63 :: B) (le_refl _)
        (repQCS_append_head k2 B),
      replaceQcs_repQCS k1 (63 :: B), replaceQcs_repQCS k2 (63 :: B)]
  · intro q1 q2 w0 hh r rest hw hh32 hh58 hr32 hr58 h1 h2
    rw [cleanupQuery, cleanupQuery, h1, h2,
      routeRewrite_fire w0 hh r rest hw hh32 hh58 hr32,
      routeRewrite_nofire w0 r rest hw hr32 hr58]

/-- Witness for C4: digits-only change, an `IN` list of three versus one
element, and a dropped `host:` prefix, each canonicalizing identically. -/
theorem C4_amended_witness :
    cleanupQuery false (strB "a=1") = cleanupQuery false (strB "a=22")
    ∧ cleanupQuery false (strB "x in (1, 2, 3)") = cleanupQuery false (strB "x in (1)")
    ∧ cleanupQuery false (strB "SELECT /* localhost:route1 */ * FROM users")
      = cleanupQuery false (strB "SELECT /* route1 */ * FROM users") := by
  refine ⟨?_, ?_, ?_⟩
  · refine C4_amended.1 (strB "a=1") (strB "a=22") ?_
    rw [show tokens false (strB "a=1")
        = [(TokenType.word, [97]), (TokenType.other, [61]), (TokenType.number, [49])]
      from by decide]
    rw [show tokens false (strB "a=22")
        = [(TokenType.word, [97]), (TokenType.other, [61]), (TokenType.number, [50, 50])]
      from by decide]
    refine List.Forall₂.cons ⟨rfl, fun _ => rfl⟩ ?_
    refine List.Forall₂.cons ⟨rfl, fun _ => rfl⟩ ?_
    refine List.Forall₂.cons ⟨rfl, fun hcon => ?_⟩ List.Forall₂.nil
    rcases hcon with h | h <;> cases h
  · exact C4_amended.2.1 (strB "x in (1, 2, 3)") (strB "x in (1)")
      (strB "x in (") (strB ")") 2 0 (by decide) (by decide) (by decide) (by decide)
  · exact C4_amended.2.2.1 (strB "SELECT /* localhost:route1 */ * FROM users")
      (strB "SELECT /* route1 */ * FROM users")
      (strB "SELECT") (strB "localhost") (strB "route1") (strB "* FROM users")
      (by decide) (by decide) (by decide) (by decide) (by decide)
      (by decide) (by decide)

/-! ### Canonical strings: sufficient conditions for retokenization to
reproduce a string verbatim (used for the idempotence analysis of C8) -/

/-- Byte is not a quote and not a control whitespace byte. -/
def canonChar (c : ℕ) : Bool := !(c == 39) && !(c == 34) && !(9 ≤ c && c ≤ 13)

/-- Adjacent-byte condition: no two consecutive spaces, and a digit only
after a letter or a digit (so rescanning keeps it inside a WORD token). -/
def canonPair (a b : ℕ) : Bool :=
  !(a == 32 && b == 32) && (!(isDigitB b) || (isAlphaB a || isDigitB a))

def canonChain : List ℕ → Bool
  | a :: b :: r => canonPair a b && canonChain (b :: r)
  | _ => true

def canonHead : List ℕ → Bool
  | c :: _ => !(isDigitB c)
  | [] => true

/-- A canonical string: quote- and control-free, no double spaces, no
digit at the start or after a non-letter/non-digit byte. -/
def canonOK (l : List ℕ) : Bool := l.all canonChar && canonHead l && canonChain l

theorem canonChain_tail (a : ℕ) (l : List ℕ) (h : canonChain (a :: l) = true) :
    canonChain l = true := by
  match l with
  | [] => rfl
  | b :: r =>
    rw [canonChain, Bool.and_eq_true] at h
    exact h.2

theorem canonChain_pair (a b : ℕ) (r : List ℕ) (h : canonChain (a :: b :: r) = true) :
    canonPair a b = true := by
  rw [canonChain, Bool.and_eq_true] at h
  exact h.1

theorem canonChain_drop : ∀ (l : List ℕ) (n : ℕ), canonChain l = true →
    canonChain (l.drop n) = true := by
  intro l
  induction l with
  | nil => intro n _; simp [canonChain]
  | cons a l ih =>
    intro n h
    cases n with
    | zero => exact h
    | succ n => exact ih n (canonChain_tail a l h)

theorem all_drop (p : ℕ → Bool) (l : List ℕ) (n : ℕ) (h : l.all p = true) :
    (l.drop n).all p = true := by
  rw [List.all_eq_true] at h ⊢
  exact fun x hx => h x (List.drop_subset n l hx)

theorem take_len_takeWhile (p : ℕ → Bool) : ∀ (l : List ℕ),
    l.take (l.takeWhile p).length = l.takeWhile p := by
  intro l
  induction l with
  | nil => rfl
  | cons a l ih =>
    by_cases h : p a
    · rw [List.takeWhile_cons_of_pos h]
      simp only [List.length_cons, List.take_succ_cons]
      rw [ih]
    · rw [List.takeWhile_cons_of_neg h]
      rfl

theorem drop_len_takeWhile (p : ℕ → Bool) : ∀ (l : List ℕ),
    l.drop (l.takeWhile p).length = l.dropWhile p := by
  intro l
  induction l with
  | nil => rfl
  | cons a l ih =>
    by_cases h : p a
    · rw [List.takeWhile_cons_of_pos h, List.dropWhile_cons_of_pos h]
      simp only [List.length_cons, List.drop_succ_cons]
      exact ih
    · rw [List.takeWhile_cons_of_neg h, List.dropWhile_cons_of_neg h]
      rfl

theorem dropWhile_head_not (p : ℕ → Bool) : ∀ (l : List ℕ) (d : ℕ) (r : List ℕ),
    l.dropWhile p = d :: r → p d = false := by
  intro l
  induction l with
  | nil => intro d r h; cases h
  | cons a l ih =>
    intro d r h
    by_cases ha : p a
    · rw [List.dropWhile_cons_of_pos ha] at h
      exact ih d r h
    · rw [List.dropWhile_cons_of_neg ha] at h
      injection h with h1 _
      subst h1
      exact Bool.eq_false_iff.mpr ha

/-- On a canonical string, tokenizing and emitting reproduces the string
verbatim. -/
theorem canon_fixpoint : ∀ (N : ℕ) (l : List ℕ), l.length ≤ N → canonOK l = true →
    (qspaceOf false l).flatten = l := by
  intro N
  induction N with
  | zero =>
    intro l hlen _
    have : l = [] := List.length_eq_zero.mp (Nat.le_zero.mp hlen)
    subst this
    rfl
  | succ N ih =>
    intro l hlen hc
    match l with
    | [] => rfl
    | c :: rest =>
      simp only [canonOK, Bool.and_eq_true] at hc
      obtain ⟨⟨hall, hhead⟩, hchain⟩ := hc
      have hcchar : canonChar c = true := List.all_eq_true.mp hall c (List.mem_cons_self _ _)
      simp only [canonChar, Bool.and_eq_true, Bool.not_eq_true', beq_eq_false_iff_ne, ne_eq,
        Bool.not_eq_true, Bool.and_eq_false_iff, decide_eq_false_iff_not, not_and,
        not_le] at hcchar
      have hcdig : isDigitB c = false := by
        simpa [canonHead] using hhead
      have hquote : ¬ (c = 39 ∨ c = 34) := by
        rintro (rfl | rfl)
        · exact absurd rfl hcchar.1.1
        · exact absurd rfl hcchar.1.2
      have hlen' : rest.length ≤ N := by
        simp only [List.length_cons] at hlen; omega
      have hrestAll : rest.all canonChar = true := by
        rw [List.all_eq_true] at hall ⊢
        exact fun x hx => hall x (List.mem_cons_of_mem _ hx)
      by_cases hws : isWsB c = true
      · -- whitespace: the byte is a space and the run has length one
        have hc32 : c = 32 := by
          simp only [isWsB, Bool.or_eq_true, beq_iff_eq, Bool.and_eq_true,
            decide_eq_true_eq] at hws
          rcases hcchar with ⟨-, hctl⟩
          rcases hws with h | h
          · exact h
          · omega
        subst hc32
        have htw : rest.takeWhile isWsB = [] := by
          match rest with
          | [] => rfl
          | d :: r' =>
            have hd32 : d ≠ 32 := by
              have := canonChain_pair 32 d r' hchain
              simp only [canonPair, Bool.and_eq_true, Bool.not_eq_true',
                Bool.and_eq_false_iff, beq_eq_false_iff_ne, ne_eq] at this
              rcases this.1 with h | h
              · simp at h
              · exact h
            have hdchar : canonChar d = true :=
              List.all_eq_true.mp hrestAll d (List.mem_cons_self _ _)
            have hdws : isWsB d = false := by
              have h2 : (decide ((9 : ℕ) ≤ d) && decide (d ≤ 13)) = false := by
                have h3 : (!(decide ((9 : ℕ) ≤ d) && decide (d ≤ 13))) = true := by
                  simp only [canonChar, Bool.and_eq_true] at hdchar
                  exact hdchar.2
                cases hb : (decide ((9 : ℕ) ≤ d) && decide (d ≤ 13))
                · rfl
                · rw [hb] at h3; exact absurd h3 (by decide)
              rw [isWsB, Bool.or_eq_false_iff]
              exact ⟨beq_eq_false_iff_ne.mpr hd32, h2⟩
            rw [List.takeWhile_cons_of_neg (by simp [hdws])]
        have hscan : scanToken false (32 :: rest) = (1, TokenType.whitespace) := by
          simp only [scanToken, Bool.false_eq_true, if_false, ite_false]
          rw [if_neg (by decide), if_neg (by decide), if_pos (by decide), htw]
          rfl
        have hcr : canonOK rest = true := by
          simp only [canonOK, Bool.and_eq_true]
          refine ⟨⟨hrestAll, ?_⟩, canonChain_tail _ _ hchain⟩
          match rest with
          | [] => rfl
          | d :: r' =>
            have := canonChain_pair 32 d r' hchain
            simp only [canonPair, Bool.and_eq_true, Bool.or_eq_true,
              Bool.not_eq_true'] at this
            rcases this.2 with h | h
            · simpa [canonHead] using h
            · rcases h with h | h <;> simp [isAlphaB, isDigitB] at h
        simp only [qspaceOf, tokens_cons, hscan, List.map_cons, List.flatten_cons]
        rw [show (32 :: rest).take 1 = [32] from rfl,
          show (32 :: rest).drop 1 = rest from rfl]
        rw [show emitToken (TokenType.whitespace, [32]) = [32] from rfl]
        have := ih rest hlen' hcr
        simp only [qspaceOf] at this
        rw [this]
        rfl
      · by_cases halpha : isAlphaB c = true
        · -- word: the token swallows the maximal wordish run verbatim
          have hscan : scanToken false (c :: rest)
              = (1 + (rest.takeWhile isWordB).length, TokenType.word) := by
            simp only [scanToken, Bool.false_eq_true, if_false, ite_false]
            rw [if_neg hquote, if_neg (by simp [hcdig]), if_neg (by simp [hws]),
              if_pos halpha]
          have hrem : (c :: rest).drop (1 + (rest.takeWhile isWordB).length)
              = rest.dropWhile isWordB := by
            rw [show 1 + (rest.takeWhile isWordB).length
                = (rest.takeWhile isWordB).length + 1 by omega]
            rw [List.drop_succ_cons]
            exact drop_len_takeWhile isWordB rest
          have htake : (c :: rest).take (1 + (rest.takeWhile isWordB).length)
              = c :: rest.takeWhile isWordB := by
            rw [show 1 + (rest.takeWhile isWordB).length
                = (rest.takeWhile isWordB).length + 1 by omega]
            rw [List.take_succ_cons, take_len_takeWhile]
          have hcr : canonOK (rest.dropWhile isWordB) = true := by
            simp only [canonOK, Bool.and_eq_true]
            rw [← drop_len_takeWhile isWordB rest]
            refine ⟨⟨all_drop _ _ _ hrestAll, ?_⟩, canonChain_drop _ _
              (canonChain_tail _ _ hchain)⟩
            rw [drop_len_takeWhile isWordB rest]
            cases hdw : rest.dropWhile isWordB with
            | nil => rfl
            | cons d r' =>
              have := dropWhile_head_not isWordB rest d r' hdw
              simp only [isWordB, Bool.or_eq_false_iff] at this
              simp [canonHead, this.1.1.1]
          have hdrop' : (rest.dropWhile isWordB).length ≤ N := by
            have h1 : (rest.dropWhile isWordB).length ≤ rest.length := by
              rw [← drop_len_takeWhile isWordB rest, List.length_drop]
              omega
            omega
          simp only [qspaceOf, tokens_cons, hscan, List.map_cons, List.flatten_cons,
            htake, hrem]
          rw [show emitToken (TokenType.word, c :: rest.takeWhile isWordB)
              = c :: rest.takeWhile isWordB from rfl]
          have := ih (rest.dropWhile isWordB) hdrop' hcr
          simp only [qspaceOf] at this
          rw [this, List.cons_append, List.takeWhile_append_dropWhile]
        · -- other: a single byte, emitted verbatim
          have hscan : scanToken false (c :: rest) = (1, TokenType.other) := by
            simp only [scanToken, Bool.false_eq_true, if_false, ite_false]
            rw [if_neg hquote, if_neg (by simp [hcdig]), if_neg (by simp [hws]),
              if_neg (by simp [halpha])]
          have hcr : canonOK rest = true := by
            simp only [canonOK, Bool.and_eq_true]
            refine ⟨⟨hrestAll, ?_⟩, canonChain_tail _ _ hchain⟩
            match rest with
            | [] => rfl
            | d :: r' =>
              have := canonChain_pair c d r' hchain
              simp only [canonPair, Bool.and_eq_true, Bool.or_eq_true,
                Bool.not_eq_true'] at this
              rcases this.2 with h | h
              · simpa [canonHead] using h
              · rcases h with h | h
                · exact absurd h (by simp [halpha])
                · exact absurd h (by simp [hcdig])
          simp only [qspaceOf, tokens_cons, hscan, List.map_cons, List.flatten_cons]
          rw [show (c :: rest).take 1 = [c] from rfl,
            show (c :: rest).drop 1 = rest from rfl]
          rw [show emitToken (TokenType.other, [c]) = [c] from rfl]
          have := ih rest hlen' hcr
          simp only [qspaceOf] at this
          rw [this]
          rfl

theorem leadsWith_qcs_shape (l : List ℕ) (h : leadsWith [63, 44, 32] l = true) :
    ∃ r, l = 63 :: 44 :: 32 :: r := by
  match l with
  | [] => simp [leadsWith] at h
  | [_] => simp [leadsWith] at h
  | [_, _] => simp [leadsWith] at h
  | a :: b :: c :: r =>
    simp only [leadsWith, Bool.and_eq_true, beq_iff_eq] at h
    obtain ⟨rfl, rfl, rfl, -⟩ := h
    exact ⟨r, rfl⟩

theorem occursQcs_cons_ne (c : ℕ) (rest : List ℕ)
    (h : leadsWith [63, 44, 32] (c :: rest) = false) :
    occursQcs (c :: rest) = occursQcs rest := by
  rw [occursQcs.eq_def]
  split
  · rename_i r' heq
    injection heq with h1 h2
    subst h1
    subst h2
    simp [leadsWith] at h
  · rename_i c' r' hno heq
    injection heq with h1 h2
    subst h1
    subst h2
    rfl
  · rename_i heq
    cases heq

theorem replaceQcs_of_not_occurs :
    ∀ (N : ℕ) (l : List ℕ), l.length ≤ N → occursQcs l = false → replaceQcs l = l := by
  intro N
  induction N with
  | zero =>
    intro l hl _
    have : l = [] := List.length_eq_zero.mp (Nat.le_zero.mp hl)
    subst this
    rfl
  | succ N ih =>
    intro l hl h
    match l with
    | [] => rfl
    | c :: rest =>
      have hlw : leadsWith [63, 44, 32] (c :: rest) = false := by
        cases hb : leadsWith [63, 44, 32] (c :: rest)
        · rfl
        · obtain ⟨r, hr⟩ := leadsWith_qcs_shape _ hb
          rw [hr] at h
          exact absurd h (by rw [show occursQcs (63 :: 44 :: 32 :: r) = true from rfl]; simp)
      rw [replaceQcs_cons_ne c rest hlw]
      rw [occursQcs_cons_ne c rest hlw] at h
      rw [ih rest (by simp at hl; omega) h]

/-- C8, counterexample: the byte string `"??, , x"` canonicalizes to
`"?, x"` (the `"?, "` removal creates a fresh occurrence of `"?, "`), and
canonicalizing that fingerprint again yields `"x"`, so one more pass
changes the result. -/
theorem C8_counterexample :
    cleanupQuery false (cleanupQuery false (strB "??, , x"))
      ≠ cleanupQuery false (strB "??, , x") := by
  decide

/-- C8, amended: canonicalization is idempotent for every query whose
fingerprint (a) contains no quote bytes, no control whitespace, no two
adjacent spaces, and no digit at the start or after a byte that is not a
letter or digit, (b) contains no occurrence of `"?, "`, and (c) is left
unchanged by the route-comment rewrite.  (The counterexample shows (b) is
necessary; a fingerprint like `"a /* h:r */ b"` re-firing the rewrite
shows (c) is necessary; (a) makes the emitted text rescan verbatim.) -/
theorem C8_amended (q : List ℕ)
    (h1 : canonOK (cleanupQuery false q) = true)
    (h2 : occursQcs (cleanupQuery false q) = false)
    (h3 : routeRewrite (cleanupQuery false q) = cleanupQuery false q) :
    cleanupQuery false (cleanupQuery false q) = cleanupQuery false q := by
  conv_lhs => rw [cleanupQuery]
  rw [canon_fixpoint (cleanupQuery false q).length _ (le_refl _) h1, h3,
    replaceQcs_of_not_occurs (cleanupQuery false q).length _ (le_refl _) h2]

/-- Witness for C8: the `IN`-list example's fingerprint is a fixpoint. -/
theorem C8_amended_witness :
    cleanupQuery false (cleanupQuery false (strB "select * from t where x in (1, 2)"))
      = cleanupQuery false (strB "select * from t where x in (1, 2)") :=
  C8_amended (strB "select * from t where x in (1, 2)")
    (by decide) (by decide) (by decide)

end Sniffer
